import Mathlib

set_option autoImplicit false

/-
Verification of the quickwit indexing pipeline, object storage layer and CLI helpers.

Each Rust function referenced by a claim is embedded as an executable Lean definition.
External calls (metastore, S3, environment variables) are passed in as explicit oracles,
and effectful code is modelled as a state transition that also returns the list of
externally visible actions in program order.
-/

/- ### Slice cache: quickwit-storage/src/cache/in_ram_slice_cache.rs -/

/-- Byte content of a cached slice (the `OwnedBytes` payload). -/
abbrev Bytes := List Nat

/-- Cache key, exactly as in `SliceAddress`: the path together with the byte range. -/
structure SliceAddress where
  path : String
  byteRangeStart : Nat
  byteRangeStop : Nat
deriving DecidableEq

/-- Entries of the in-memory cache, most recently used first. -/
abbrev CacheEntries := List (SliceAddress × Bytes)

/-- Weight of one cache entry: the payload length, as in the `weigher` closure of
`SliceCache::with_capacity` (`payload.len()`). -/
def entryWeight (e : SliceAddress × Bytes) : Nat := e.2.length

/-- Total weighted size of the cache (`weighted_size`). -/
def cacheWeight (entries : CacheEntries) : Nat := (entries.map entryWeight).sum

/-- Modelled from the spec: the `moka` size-bounded cache backing `SliceCache` is not part of
the reproduced sources. Per the spec (§4.10), total cached bytes stay at most `capacity` and on
overflow the least-recently-used entries are evicted; the weight of an entry is its payload
length. Recency is the position in the entry list (head is the most recently used, tail the
least recently used). This function drops entries from the least-recently-used end until the
total weight fits; the fuel argument only bounds the recursion. -/
def evictLruAux (cap : Nat) : Nat → CacheEntries → CacheEntries
  | 0, entries => entries
  | fuel + 1, entries =>
    if cacheWeight entries ≤ cap then entries else evictLruAux cap fuel entries.dropLast

/-- Eviction loop of the bounded cache: drop least-recently-used entries until the total
weight is at most `cap`. -/
def evictLru (cap : Nat) (entries : CacheEntries) : CacheEntries :=
  evictLruAux cap entries.length entries

/-- Removes every entry stored under the given address (an insert replaces the previous
value for the key). -/
def removeEntry (addr : SliceAddress) : CacheEntries → CacheEntries
  | [] => []
  | e :: rest => if e.1 = addr then removeEntry addr rest else e :: removeEntry addr rest

/-- Exact-key lookup in the entry list. -/
def findEntry (addr : SliceAddress) : CacheEntries → Option Bytes
  | [] => none
  | e :: rest => if e.1 = addr then some e.2 else findEntry addr rest

/-- The `SliceCache` struct: the backing cache plus the optional capacity
(`None` for the unbounded variant). -/
structure SliceCache where
  entries : CacheEntries
  capacity : Option Nat
deriving DecidableEq

/-- `SliceCache::with_capacity`. -/
def SliceCache.withCapacity (cap : Nat) : SliceCache := ⟨[], some cap⟩

/-- `SliceCache::with_infinite_capacity`. -/
def SliceCache.withInfiniteCapacity : SliceCache := ⟨[], none⟩

/-- `SliceCache::get`: looks up the exact `(path, byte_range)` key. -/
def SliceCache.get (c : SliceCache) (path : String) (rStart rStop : Nat) : Option Bytes :=
  findEntry ⟨path, rStart, rStop⟩ c.entries

/-- `SliceCache::put`: if the cache is bounded and the byte range is longer than the
capacity the put is silently dropped (`byte_range.len() as u64 > capacity.get_bytes()`);
otherwise the entry is inserted (replacing any entry with the same key) and the cache evicts
down to its capacity. -/
def SliceCache.put (c : SliceCache) (path : String) (rStart rStop : Nat) (bytes : Bytes) :
    SliceCache :=
  match c.capacity with
  | some cap =>
    if rStop - rStart > cap then c
    else
      ⟨evictLru cap
        ((⟨path, rStart, rStop⟩, bytes) :: removeEntry ⟨path, rStart, rStop⟩ c.entries),
       some cap⟩
  | none => ⟨(⟨path, rStart, rStop⟩, bytes) :: removeEntry ⟨path, rStart, rStop⟩ c.entries, none⟩

/-- A call against the cache, for stating reachability invariants. -/
inductive CacheOp where
  | put (path : String) (rStart rStop : Nat) (bytes : Bytes)
  | get (path : String) (rStart rStop : Nat)
deriving DecidableEq

/-- Runs a sequence of cache calls (`get` does not change the stored entries in this model). -/
def SliceCache.runOps (c : SliceCache) : List CacheOp → SliceCache
  | [] => c
  | CacheOp.put p a b bytes :: ops => (c.put p a b bytes).runOps ops
  | CacheOp.get _ _ _ :: ops => c.runOps ops

/- ### Uploader: quickwit-indexing/src/actors/uploader.rs -/

/-- `MAX_CONCURRENT_SPLIT_UPLOAD`: capacity of the process-wide upload semaphore. -/
def MAX_CONCURRENT_SPLIT_UPLOAD : Nat := 4

/-- A packaged split, reduced to its identifier. The remaining fields of `PackagedSplit`
(index id, time range, tags, scratch directory, ...) only flow into the staged metadata and
do not influence the order of the metastore and storage calls. -/
structure PackagedSplit where
  splitId : String
deriving DecidableEq

/-- External calls issued by `stage_and_upload_split`, in program order:
the `metastore_service.stage_split` request and the `split_store.store_split` upload. -/
inductive UploadEvent where
  | stageSplit (splitId : String)
  | storeSplit (splitId : String)
deriving DecidableEq

/-- `stage_and_upload_split`: builds the split payload and metadata (pure), stages the split
in the metastore and, only if staging succeeded, stores the split object. `stageOk` and
`storeOk` give the outcomes of the two external calls. Returns the calls that were issued in
order, and whether the function returned `Ok`. -/
def stage_and_upload_split (split : PackagedSplit) (stageOk storeOk : String → Bool) :
    List UploadEvent × Bool :=
  if stageOk split.splitId then
    ([UploadEvent.stageSplit split.splitId, UploadEvent.storeSplit split.splitId],
     storeOk split.splitId)
  else
    ([UploadEvent.stageSplit split.splitId], false)

/-- The upload task spawned by the uploader handler: calls `stage_and_upload_split` for each
split of the batch in order, and stops at the first failure (which fires the kill switch). -/
def upload_splits_loop (splits : List PackagedSplit) (stageOk storeOk : String → Bool) :
    List UploadEvent × Bool :=
  match splits with
  | [] => ([], true)
  | s :: rest =>
    let r := stage_and_upload_split s stageOk storeOk
    if r.2 then
      let r' := upload_splits_loop rest stageOk storeOk
      (r.1 ++ r'.1, r'.2)
    else (r.1, false)

/-- The externally visible steps of `Handler<PackagedSplitBatch> for Uploader::handle`,
in program order: create the oneshot `SplitUpdate` channel, send its receiver to the
`Sequencer` mailbox, acquire a permit of `CONCURRENT_UPLOAD_PERMITS`, check the kill switch,
and spawn the upload task. -/
inductive UploaderAction where
  | obtainReplyChannel
  | enqueueSequencer
  | acquirePermit
  | checkKillSwitch
  | spawnUploadTask
deriving DecidableEq

/-- `Uploader::handle`: the trace of steps it performs and whether it returned `Ok`.
`sendOk` is the outcome of sending the receiver to the sequencer mailbox, `acquireOk` the
outcome of the semaphore acquisition, and `killSwitchDead` the state of the kill switch
observed after the permit was acquired. -/
def uploader_handle (sendOk acquireOk killSwitchDead : Bool) : List UploaderAction × Bool :=
  if !sendOk then
    ([UploaderAction.obtainReplyChannel, UploaderAction.enqueueSequencer], false)
  else if !acquireOk then
    ([UploaderAction.obtainReplyChannel, UploaderAction.enqueueSequencer,
      UploaderAction.acquirePermit], false)
  else if killSwitchDead then
    ([UploaderAction.obtainReplyChannel, UploaderAction.enqueueSequencer,
      UploaderAction.acquirePermit, UploaderAction.checkKillSwitch], false)
  else
    ([UploaderAction.obtainReplyChannel, UploaderAction.enqueueSequencer,
      UploaderAction.acquirePermit, UploaderAction.checkKillSwitch,
      UploaderAction.spawnUploadTask], true)

/- ### Indexer: quickwit-indexing/src/actors/indexer.rs -/

/-- `IndexerCounters`. -/
structure IndexerCounters where
  numParseErrors : Nat
  numMissingFields : Nat
  numValidDocs : Nat
  numSplitsEmitted : Nat
  numSplitBatchesEmitted : Nat
  overallNumBytes : Nat
  numDocsInWorkbench : Nat
deriving DecidableEq

def IndexerCounters.zero : IndexerCounters := ⟨0, 0, 0, 0, 0, 0, 0⟩

/-- Outcome of `IndexerState::prepare_document` for one document. The doc mapper itself is an
external collaborator; a document is represented by the classification it receives, and for a
valid document by its extracted timestamp and partition key. -/
inductive DocOutcome where
  | parsingError
  | missingField
  | document (timestampOpt : Option Int) (partition : Nat)
deriving DecidableEq

/-- A raw JSON document: its byte length and its doc-mapper outcome. -/
structure RawDoc where
  numBytes : Nat
  outcome : DocOutcome
deriving DecidableEq

/-- A `RawDocBatch`: documents plus the batch checkpoint delta. The delta is the
single-partition reduction of `SourceCheckpointDelta`, modelled from the spec (§3, the
`quickwit-metastore` checkpoint module is not among the reproduced sources): a pair of a
`from` and a `to` offset. -/
structure RawDocBatch where
  docs : List RawDoc
  checkpointDelta : Nat × Nat
deriving DecidableEq

/-- Modelled from the spec: `SourceCheckpointDelta::extend` succeeds when the appended delta
starts where the accumulated one ends (`none` stands for the empty default delta, which
extends with anything); a mismatch is an out-of-order error. -/
def extendDelta (acc : Option (Nat × Nat)) (d : Nat × Nat) : Option (Option (Nat × Nat)) :=
  match acc with
  | none => some (some d)
  | some (lo, hi) => if d.1 = hi then some (some (lo, d.2)) else none

/-- An in-memory `IndexedSplit`, reduced to the fields the indexer updates per document. -/
structure IndexedSplit where
  numDocs : Nat
  docsSizeInBytes : Nat
  timeRange : Option (Int × Int)
deriving DecidableEq

/-- `record_timestamp`: widens the split time range to include the new timestamp. -/
def record_timestamp (timestamp : Int) (timeRange : Option (Int × Int)) : Option (Int × Int) :=
  match timeRange with
  | some (s, e) => some (min timestamp s, max timestamp e)
  | none => some (timestamp, timestamp)

/-- A fresh `IndexedSplit` as created by `create_indexed_split`. -/
def IndexedSplit.empty : IndexedSplit := ⟨0, 0, none⟩

/-- The per-document updates applied to an indexed split inside `process_batch`:
document size, document count and time range. -/
def IndexedSplit.addDoc (s : IndexedSplit) (numBytes : Nat) (tsOpt : Option Int) :
    IndexedSplit :=
  { numDocs := s.numDocs + 1
    docsSizeInBytes := s.docsSizeInBytes + numBytes
    timeRange :=
      match tsOpt with
      | some ts => record_timestamp ts s.timeRange
      | none => s.timeRange }

/-- `get_or_create_indexed_split` combined with the per-document updates: the split of the
document's partition is updated in place, or created first if the partition is new.
The map `partition_key -> IndexedSplit` is kept as an association list in creation order. -/
def addDocToSplits (partition : Nat) (numBytes : Nat) (tsOpt : Option Int) :
    List (Nat × IndexedSplit) → List (Nat × IndexedSplit)
  | [] => [(partition, IndexedSplit.empty.addDoc numBytes tsOpt)]
  | (p, s) :: rest =>
    if p = partition then (p, s.addDoc numBytes tsOpt) :: rest
    else (p, s) :: addDocToSplits partition numBytes tsOpt rest

/-- The `IndexingWorkbench`: accumulated checkpoint delta, the per-partition splits and the
workbench id (a counter stands in for the ULID; `date_of_birth` only feeds metrics and is
omitted). -/
structure IndexingWorkbench where
  checkpointDelta : Option (Nat × Nat)
  indexedSplits : List (Nat × IndexedSplit)
  workbenchId : Nat
deriving DecidableEq

/-- The `Indexer` actor state: its settings (`index_id` and
`indexing_settings.split_num_docs_target`), the optional workbench, the counters and the
counter used to mint workbench ids. -/
structure Indexer where
  indexId : String
  splitNumDocsTarget : Nat
  workbenchOpt : Option IndexingWorkbench
  counters : IndexerCounters
  nextWorkbenchId : Nat
deriving DecidableEq

/-- Externally visible effects of the indexer: scheduling the commit timeout for a new
workbench, emitting an `IndexedSplitBatch` to the packager, and the empty-split
`publish_splits` request sent directly to the metastore. -/
inductive IndexerEffect where
  | scheduleCommitTimeout (workbenchId : Nat)
  | emitSplitBatch (splits : List IndexedSplit) (checkpointDelta : Option (Nat × Nat))
  | publishSplits (indexId : String) (splitIds replacedSplitIds : List String)
      (checkpointDelta : Option (Nat × Nat))
deriving DecidableEq

/-- The per-document body of the loop in `IndexerState::process_batch`: byte accounting,
outcome counters, and the split update for a valid document. -/
def processDoc (st : IndexerCounters × List (Nat × IndexedSplit)) (doc : RawDoc) :
    IndexerCounters × List (Nat × IndexedSplit) :=
  let counters := { st.1 with overallNumBytes := st.1.overallNumBytes + doc.numBytes }
  match doc.outcome with
  | DocOutcome.parsingError =>
    ({ counters with numParseErrors := counters.numParseErrors + 1 }, st.2)
  | DocOutcome.missingField =>
    ({ counters with numMissingFields := counters.numMissingFields + 1 }, st.2)
  | DocOutcome.document tsOpt partition =>
    ({ counters with
        numDocsInWorkbench := counters.numDocsInWorkbench + 1
        numValidDocs := counters.numValidDocs + 1 },
     addDocToSplits partition doc.numBytes tsOpt st.2)

/-- The document loop of `IndexerState::process_batch`. -/
def processDocs (counters : IndexerCounters) (splits : List (Nat × IndexedSplit))
    (docs : List RawDoc) : IndexerCounters × List (Nat × IndexedSplit) :=
  docs.foldl processDoc (counters, splits)

/-- `IndexerState::process_batch`: gets or creates the workbench (scheduling the commit
timeout on creation), extends the checkpoint delta (a mismatch is a fatal error, `none`),
then processes every document of the batch. -/
def Indexer.processBatchInner (ind : Indexer) (batch : RawDocBatch) :
    Option (Indexer × List IndexerEffect) :=
  let created :=
    match ind.workbenchOpt with
    | some wb => (wb, ([] : List IndexerEffect), ind.nextWorkbenchId)
    | none =>
      (⟨none, [], ind.nextWorkbenchId⟩,
       [IndexerEffect.scheduleCommitTimeout ind.nextWorkbenchId], ind.nextWorkbenchId + 1)
  match extendDelta created.1.checkpointDelta batch.checkpointDelta with
  | none => none
  | some newDelta =>
    let r := processDocs ind.counters created.1.indexedSplits batch.docs
    some
      ({ ind with
          workbenchOpt := some ⟨newDelta, r.2, created.1.workbenchId⟩
          counters := r.1
          nextWorkbenchId := created.2.2 },
       created.2.1)

/-- `Indexer::send_to_packager`: takes the workbench; with no indexed split it publishes an
empty split list together with the accumulated checkpoint delta, otherwise it emits the
`IndexedSplitBatch` and updates the emission counters. -/
def Indexer.sendToPackager (ind : Indexer) : Indexer × List IndexerEffect :=
  match ind.workbenchOpt with
  | none => (ind, [])
  | some wb =>
    let ind' := { ind with workbenchOpt := none }
    let splits := wb.indexedSplits.map Prod.snd
    if splits.isEmpty then
      (ind', [IndexerEffect.publishSplits ind'.indexId [] [] wb.checkpointDelta])
    else
      ({ ind' with
          counters :=
            { ind'.counters with
                numDocsInWorkbench := 0
                numSplitsEmitted := ind'.counters.numSplitsEmitted + splits.length
                numSplitBatchesEmitted := ind'.counters.numSplitBatchesEmitted + 1 } },
       [IndexerEffect.emitSplitBatch splits wb.checkpointDelta])

/-- `Indexer::process_batch` (the `RawDocBatch` handler): processes the batch and commits to
the packager when the workbench holds at least `split_num_docs_target` valid documents. -/
def Indexer.processBatch (ind : Indexer) (batch : RawDocBatch) :
    Option (Indexer × List IndexerEffect) :=
  match ind.processBatchInner batch with
  | none => none
  | some (ind', effs) =>
    if ind'.counters.numDocsInWorkbench ≥ ind'.splitNumDocsTarget then
      let r := ind'.sendToPackager
      some (r.1, effs ++ r.2)
    else some (ind', effs)

/-- `Handler<CommitTimeout> for Indexer::handle`: a timeout for a workbench other than the
current one is ignored, otherwise the workbench is committed. -/
def Indexer.handleCommitTimeout (ind : Indexer) (workbenchId : Nat) :
    Indexer × List IndexerEffect :=
  match ind.workbenchOpt with
  | some wb =>
    if wb.workbenchId ≠ workbenchId then (ind, []) else ind.sendToPackager
  | none => ind.sendToPackager

/-- Messages handled by the indexer actor. -/
inductive IndexerMsg where
  | rawDocBatch (batch : RawDocBatch)
  | commitTimeout (workbenchId : Nat)
deriving DecidableEq

/-- Dispatch of one indexer message. -/
def Indexer.handleMsg (ind : Indexer) : IndexerMsg → Option (Indexer × List IndexerEffect)
  | IndexerMsg.rawDocBatch b => ind.processBatch b
  | IndexerMsg.commitTimeout i => some (ind.handleCommitTimeout i)

/-- Runs the indexer over a message sequence, accumulating the effects in order. -/
def Indexer.runMsgs (ind : Indexer) : List IndexerMsg → Option (Indexer × List IndexerEffect)
  | [] => some (ind, [])
  | m :: ms =>
    match ind.handleMsg m with
    | none => none
    | some (ind', effs) =>
      match ind'.runMsgs ms with
      | none => none
      | some (ind'', effs') => some (ind'', effs ++ effs')

/- ### Publisher: quickwit-indexing/src/actors/publisher.rs -/

/-- `PublisherCounters`. -/
structure PublisherCounters where
  numPublishedSplits : Nat
  numReplaceOperations : Nat
deriving DecidableEq

/-- A `SplitUpdate` message: new split ids, replaced split ids and the optional checkpoint
delta (`source_id` together with the single-partition delta). -/
structure SplitUpdate where
  indexId : String
  newSplits : List String
  replacedSplitIds : List String
  checkpointDeltaOpt : Option (String × Nat × Nat)
deriving DecidableEq

/-- External calls issued by the publisher handler: the metastore `publish_splits`
transaction, the best-effort `SuggestTruncate` to the source, and the best-effort
`NewSplits` notification to the merge planner. -/
inductive PublisherEffect where
  | publishSplits (indexId : String) (splitIds replacedSplitIds : List String)
      (checkpointDelta : Option (String × Nat × Nat))
  | suggestTruncate (delta : String × Nat × Nat)
  | notifyMergePlanner (newSplits : List String)
deriving DecidableEq

/-- `Handler<SplitUpdate> for Publisher::handle`: publishes the splits (a failure returns the
error with the counters untouched), then best-effort suggests truncation when a source
mailbox and a checkpoint delta are present, notifies the merge planner, and increments
`num_published_splits`. Returns the new counters, the calls issued in order, and whether the
handler returned `Ok`. -/
def publisher_handle_split_update (counters : PublisherCounters) (msg : SplitUpdate)
    (publishOk : Bool) (hasSourceMailbox : Bool) :
    PublisherCounters × List PublisherEffect × Bool :=
  let req :=
    PublisherEffect.publishSplits msg.indexId msg.newSplits msg.replacedSplitIds
      msg.checkpointDeltaOpt
  if !publishOk then (counters, [req], false)
  else
    let truncEffs :=
      match hasSourceMailbox, msg.checkpointDeltaOpt with
      | true, some d => [PublisherEffect.suggestTruncate d]
      | _, _ => []
    ({ counters with numPublishedSplits := counters.numPublishedSplits + 1 },
     req :: truncEffs ++ [PublisherEffect.notifyMergePlanner msg.newSplits], true)

/- ### S3 storage: quickwit-storage/src/object_storage/s3_compatible_storage.rs -/

/-- Outcome of one attempt of an external S3 call: success, a transient (retryable) error, or
a permanent error, as classified by the `Retryable` predicate. -/
inductive CallOutcome where
  | success
  | transient
  | permanent
deriving DecidableEq

def CallOutcome.isSuccess : CallOutcome → Bool
  | CallOutcome.success => true
  | _ => false

/-- `RetryParams`, reduced to the attempt cap (the backoff delays do not affect which calls
are made). -/
structure RetryParams where
  maxAttempts : Nat
deriving DecidableEq

/-- From `S3CompatibleObjectStorage::new`: `RetryParams { max_attempts: 3, ..Default }`. -/
def s3RetryParams : RetryParams := ⟨3⟩

/-- Modelled from the spec: the `quickwit-aws` `retry` helper is not among the reproduced
sources. Per the spec, retries are classified by a `Retryable` predicate and capped at
`max_attempts`: a transient error is retried while fewer than `max_attempts` attempts were
made; success or a permanent error stops at once. `outcome a` is the result of attempt `a`
(attempts are numbered from 1); the fuel only bounds the recursion. Returns the number of
attempts performed together with the final outcome. -/
def retryGo (outcome : Nat → CallOutcome) (maxAttempts : Nat) : Nat → Nat → Nat × CallOutcome
  | attempt, 0 => (attempt, outcome attempt)
  | attempt, fuel + 1 =>
    match outcome attempt with
    | CallOutcome.success => (attempt, CallOutcome.success)
    | CallOutcome.permanent => (attempt, CallOutcome.permanent)
    | CallOutcome.transient =>
      if attempt < maxAttempts then retryGo outcome maxAttempts (attempt + 1) fuel
      else (attempt, CallOutcome.transient)

/-- The `retry` wrapper applied to one operation. -/
def retryCall (p : RetryParams) (outcome : Nat → CallOutcome) : Nat × CallOutcome :=
  retryGo outcome p.maxAttempts 1 p.maxAttempts

/-- The S3 requests issued by `put`, each tagged with its attempt number. -/
inductive S3Call where
  | putObject (attempt : Nat)
  | createMultipartUpload (attempt : Nat)
  | uploadPart (partNumber : Nat) (attempt : Nat)
  | completeMultipartUpload (attempt : Nat)
  | abortMultipartUpload (attempt : Nat)
deriving DecidableEq

/-- The calls a retried operation issues: one per attempt, attempts numbered from 1. -/
def attemptCalls (f : Nat → S3Call) (attemptsMade : Nat) : List S3Call :=
  (List.range attemptsMade).map (fun a => f (a + 1))

/-- Per-attempt outcomes of every external call `put` can make. -/
structure S3Oracle where
  putObjectOutcome : Nat → CallOutcome
  createOutcome : Nat → CallOutcome
  partOutcome : Nat → Nat → CallOutcome
  completeOutcome : Nat → CallOutcome
  abortOutcome : Nat → CallOutcome

/-- The part-upload stage of `put_multi_part`: every part is driven to completion by the
buffered stream (`collect` awaits all part futures even if one of them has already failed),
each part wrapped in `retry`. `start` is the next 1-based part number and `remaining` the
number of parts left. Returns the upload-part calls issued and whether every part
succeeded. -/
def uploadParts (p : RetryParams) (o : S3Oracle) : Nat → Nat → List S3Call × Bool
  | _, 0 => ([], true)
  | start, remaining + 1 =>
    let r := retryCall p (o.partOutcome start)
    let rest := uploadParts p o (start + 1) remaining
    (attemptCalls (S3Call.uploadPart start) r.1 ++ rest.1, r.2.isSuccess && rest.2)

/-- `S3CompatibleObjectStorage::put_multi_part`: creates the multipart upload (retried),
uploads all parts (each retried); if every part succeeded it completes the upload (retried),
otherwise it aborts the upload best-effort (a failure of the abort itself is only logged) and
returns the upload error. Returns the calls issued in order and whether `put_multi_part`
returned `Ok`. -/
def put_multi_part (p : RetryParams) (o : S3Oracle) (numParts : Nat) : List S3Call × Bool :=
  let create := retryCall p o.createOutcome
  let createCalls := attemptCalls S3Call.createMultipartUpload create.1
  if create.2.isSuccess then
    let parts := uploadParts p o 1 numParts
    if parts.2 then
      let complete := retryCall p o.completeOutcome
      (createCalls ++ parts.1 ++ attemptCalls S3Call.completeMultipartUpload complete.1,
       complete.2.isSuccess)
    else
      let abort := retryCall p o.abortOutcome
      (createCalls ++ parts.1 ++ attemptCalls S3Call.abortMultipartUpload abort.1, false)
  else (createCalls, false)

/-- Modelled from the spec: `chunk_range` from `quickwit-common` (used by
`create_multipart_requests`) is not among the reproduced sources. Per the spec, the payload
is split into fixed-size parts, the last part possibly shorter. -/
def chunkRanges (len chunkSize : Nat) : List (Nat × Nat) :=
  (List.range ((len + chunkSize - 1) / chunkSize)).map
    (fun i => (i * chunkSize, min ((i + 1) * chunkSize) len))

/-- `Storage::put` for the S3 storage: single-part `PUT` (retried) when
`part_num_bytes >= total_len`, multi-part upload otherwise, with one part per chunk of the
payload. -/
def s3_put (p : RetryParams) (o : S3Oracle) (partNumBytes totalLen : Nat) :
    List S3Call × Bool :=
  if partNumBytes ≥ totalLen then
    let single := retryCall p o.putObjectOutcome
    (attemptCalls S3Call.putObject single.1, single.2.isSuccess)
  else put_multi_part p o (chunkRanges totalLen partNumBytes).length

/-- Tests whether a call is an upload of the given part. -/
def isUploadPartOf (n : Nat) : S3Call → Bool
  | S3Call.uploadPart m _ => m == n
  | _ => false

def isCreateCall : S3Call → Bool
  | S3Call.createMultipartUpload _ => true
  | _ => false

def isAbortCall : S3Call → Bool
  | S3Call.abortMultipartUpload _ => true
  | _ => false

def isCompleteCall : S3Call → Bool
  | S3Call.completeMultipartUpload _ => true
  | _ => false

/- ### CLI descriptive statistics: quickwit-cli/src/index.rs -/

/-- Modelled from the spec: the `percentile` helper of the CLI stats module is not among the
reproduced sources. It is taken as the nearest-rank percentile of the sample: the element of
the sorted sample at rank `ceil(q * n / 100)` (and at least 1). -/
def percentileSpec (values : List Nat) (q : Nat) : Nat :=
  let sorted := values.insertionSort (· ≤ ·)
  let rank := max ((q * sorted.length + 99) / 100) 1
  sorted.getD (rank - 1) 0

/-- The quantile part of `print_descriptive_stats`: the five values displayed under the
label `Quantiles [1%, 25%, 50%, 75%, 99%]`, computed with the ranks that the source passes
to `percentile`: 1, 50, 50, 75 and 75. -/
def displayedQuantiles (pct : List Nat → Nat → Nat) (values : List Nat) :
    Nat × Nat × Nat × Nat × Nat :=
  (pct values 1, pct values 50, pct values 50, pct values 75, pct values 75)

/-- The concrete sample exhibiting the rank typo. -/
def c8FailingInput : List Nat := [10, 20, 30, 40, 50, 60, 70, 80]

/- ### Config templating: quickwit-cli/src/template.rs -/

/-- The opening curly brace character. -/
def lbrace : Char := Char.ofNat 123

/-- The closing curly brace character. -/
def rbrace : Char := Char.ofNat 125

/-- The character class `[A-Za-z0-9_]` of `TEMPLATE_ENV_VAR_CAPTURE`. -/
def isWordChar (c : Char) : Bool :=
  (65 ≤ c.toNat && c.toNat ≤ 90) || (97 ≤ c.toNat && c.toNat ≤ 122) ||
    (48 ≤ c.toNat && c.toNat ≤ 57) || c.toNat == 95

/-- The regex whitespace class `\s` (its ASCII part, which is all the config files use). -/
def isSpaceChar (c : Char) : Bool :=
  c.toNat == 32 || (9 ≤ c.toNat && c.toNat ≤ 13)

/-- The regex tail `\s*` followed by the closing brace: true when the string, after skipping
whitespace, continues with a closing brace. -/
def closesAfterSpaces (s : List Char) : Bool :=
  match s.dropWhile isSpaceChar with
  | c :: _ => c == rbrace
  | [] => false

/-- Greedy length of the optional second capture group `([\S]+)?`: the largest
`k ≥ 1` not exceeding the bound such that after `k` characters the tail `\s*` plus the
closing brace still matches. Counting down from the bound realizes the preference order of
the greedy quantifier. -/
def greedyLenGo (rest : List Char) : Nat → Option Nat
  | 0 => none
  | k + 1 => if closesAfterSpaces (rest.drop (k + 1)) then some (k + 1) else greedyLenGo rest k

/-- The second capture group starts at `rest` and is a run of non-whitespace characters, so
its length is bounded by the maximal non-whitespace run at `rest`. -/
def greedyDefaultLen (rest : List Char) : Option Nat :=
  greedyLenGo rest (rest.takeWhile (fun c => !isSpaceChar c)).length

/-- One match of `TEMPLATE_ENV_VAR_CAPTURE`: the variable name (first capture group) and the
optional default value (second capture group). -/
structure TemplateCapture where
  name : List Char
  defaultVal : Option (List Char)
deriving DecidableEq

/-- Attempts to match `TEMPLATE_ENV_VAR_CAPTURE`, the regex
`\$\x7b\s*([A-Za-z0-9_]+):?([\S]+)?\s*\x7d`, at the head of `s`, with the regex crate's
leftmost-first greedy semantics. On success, returns the capture groups and the rest of the
input after the matched region. -/
def matchAt (s : List Char) : Option (TemplateCapture × List Char) :=
  match s with
  | c0 :: c1 :: rest0 =>
    if c0 = '$' then
      if c1 = lbrace then
        let rest1 := rest0.dropWhile isSpaceChar
        let name := rest1.takeWhile isWordChar
        if name.isEmpty then none
        else
          let rest2 := rest1.drop name.length
          let rest3 := if rest2.head? = some ':' then rest2.tail else rest2
          match greedyDefaultLen rest3 with
          | some k =>
            match (rest3.drop k).dropWhile isSpaceChar with
            | _ :: rest5 => some (⟨name, some (rest3.take k)⟩, rest5)
            | [] => none
          | none =>
            match rest3.dropWhile isSpaceChar with
            | c2 :: rest5 => if c2 = rbrace then some (⟨name, none⟩, rest5) else none
            | [] => none
      else none
    else none
  | _ => none

/-- `TEMPLATE_ENV_VAR_CAPTURE.captures_iter`: the non-overlapping matches of the capture
regex, scanned left to right; the fuel only bounds the recursion and is instantiated with
the input length. -/
def scanCaptures : Nat → List Char → List TemplateCapture
  | 0, _ => []
  | _ + 1, [] => []
  | fuel + 1, c :: tail =>
    match matchAt (c :: tail) with
    | some (cap, rest) => cap :: scanCaptures fuel rest
    | none => scanCaptures fuel tail

/-- The process environment, mapping a variable name to its optional value. -/
abbrev EnvMap := List Char → Option (List Char)

/-- The substitution map built by `render_config_file` (a `HashMap` in the source; an
association list here, where an insert replaces the previous binding of the key). -/
abbrev TemplateData := List (List Char × List Char)

def lookupData (k : List Char) : TemplateData → Option (List Char)
  | [] => none
  | e :: rest => if e.1 = k then some e.2 else lookupData k rest

def removeData (k : List Char) : TemplateData → TemplateData
  | [] => []
  | e :: rest => if e.1 = k then removeData k rest else e :: removeData k rest

def insertData (data : TemplateData) (k v : List Char) : TemplateData :=
  (k, v) :: removeData k data

/-- The capture loop of `render_config_file`: for every capture, the substitution value is
the environment value of the variable when set, else the captured default value, else the
loop bails out with an error; the value is inserted into the map under the variable name
(a later capture of the same name overwrites an earlier one). -/
def buildData (env : EnvMap) : List TemplateCapture → TemplateData → Option TemplateData
  | [], data => some data
  | cap :: rest, data =>
    match env cap.name with
    | some v => buildData env rest (insertData data cap.name v)
    | none =>
      match cap.defaultVal with
      | some d => buildData env rest (insertData data cap.name d)
      | none => none

/-- `Template::render` with the capture regex: replaces every matched region by the map
value of its first capture group; a name missing from the map is a render error. The fuel
only bounds the recursion and is instantiated with the input length. -/
def renderScan (data : TemplateData) : Nat → List Char → Option (List Char)
  | 0, s => some s
  | _ + 1, [] => some []
  | fuel + 1, c :: tail =>
    match matchAt (c :: tail) with
    | some (cap, rest) =>
      match lookupData cap.name data with
      | some v => (renderScan data fuel rest).map (fun out => v ++ out)
      | none => none
    | none => (renderScan data fuel tail).map (fun out => c :: out)

/-- `render_config_file`: collects the captures, resolves each of them against the
environment (building the substitution map), and renders the template. The UTF-8 decoding
of the input bytes is not modelled: inputs are already character lists. -/
def render_config_file (env : EnvMap) (contents : List Char) : Option (List Char) :=
  match buildData env (scanCaptures contents.length contents) [] with
  | none => none
  | some data => renderScan data contents.length contents

/-- A structured template: literal chunks interleaved with variable references, used to
state what rendering does on every well-formed template. -/
inductive TemplateSeg where
  | lit (chars : List Char)
  | ref (name : List Char) (defaultVal : Option (List Char))
deriving DecidableEq

/-- The concrete text of one segment: a reference prints as the dollar sign, an opening
brace, the name, optionally a colon and the default value, and a closing brace. -/
def assembleSeg : TemplateSeg → List Char
  | TemplateSeg.lit l => l
  | TemplateSeg.ref n none => '$' :: lbrace :: (n ++ [rbrace])
  | TemplateSeg.ref n (some d) => '$' :: lbrace :: (n ++ ':' :: d ++ [rbrace])

/-- The concrete text of a structured template. -/
def assemble (segs : List TemplateSeg) : List Char := (segs.map assembleSeg).flatten

/-- Well-formedness of a literal chunk: it contains no dollar sign (so no match can start
inside it) and no closing brace (so a greedy default cannot extend into it). -/
def litOk (l : List Char) : Bool := !l.contains '$' && !l.contains rbrace

/-- Well-formedness of a reference: a nonempty name of word characters, and a default
value, when present, that is a nonempty run of non-whitespace characters other than the
closing brace. -/
def dfltOk : Option (List Char) → Bool
  | none => true
  | some dv => !dv.isEmpty && dv.all (fun c => !isSpaceChar c && c != rbrace)

def refOk (n : List Char) (d : Option (List Char)) : Bool :=
  !n.isEmpty && n.all isWordChar && dfltOk d

/-- The segment list directly following a reference must keep the greedy default from
crossing the reference's closing brace: the next segment is a literal starting with a
whitespace character (or there is nothing left). -/
def afterRefOk : List TemplateSeg → Bool
  | [] => true
  | TemplateSeg.lit (c :: _) :: _ => isSpaceChar c
  | _ => false

/-- Well-formedness of a structured template. -/
def segsOk : List TemplateSeg → Bool
  | [] => true
  | TemplateSeg.lit l :: rest => litOk l && segsOk rest
  | TemplateSeg.ref n d :: rest => refOk n d && afterRefOk rest && segsOk rest

/-- The names of the references of a structured template. -/
def refNames : List TemplateSeg → List (List Char)
  | [] => []
  | TemplateSeg.lit _ :: rest => refNames rest
  | TemplateSeg.ref n _ :: rest => n :: refNames rest

/-- A reference resolves to the environment value of its name when set, else to its default
value. -/
def resolveRef (env : EnvMap) (n : List Char) (d : Option (List Char)) : Option (List Char) :=
  match env n with
  | some v => some v
  | none => d

/-- True when every reference of the template resolves. -/
def allResolvable (env : EnvMap) : List TemplateSeg → Bool
  | [] => true
  | TemplateSeg.lit _ :: rest => allResolvable env rest
  | TemplateSeg.ref n d :: rest => (resolveRef env n d).isSome && allResolvable env rest

/-- The rendering of one segment when every reference resolves. -/
def renderedSeg (env : EnvMap) : TemplateSeg → List Char
  | TemplateSeg.lit l => l
  | TemplateSeg.ref n d => (resolveRef env n d).getD []

/-- The captures a structured template produces, one per reference in order. -/
def segCaptures : List TemplateSeg → List TemplateCapture
  | [] => []
  | TemplateSeg.lit _ :: rest => segCaptures rest
  | TemplateSeg.ref n d :: rest => ⟨n, d⟩ :: segCaptures rest

/-- The environment of the counterexample: no variable is set. -/
def c7Env : EnvMap := fun _ => none

/-- A concrete well-formed template: a literal, a reference without default, a literal and a
reference with the default `x1`. -/
def c7Segs : List TemplateSeg :=
  [TemplateSeg.lit "metastore: ".toList,
   TemplateSeg.ref "VAR".toList none,
   TemplateSeg.lit " root: ".toList,
   TemplateSeg.ref "ROOT_DIR".toList (some "x1".toList)]

/-- A concrete environment where only `VAR` is set. -/
def c7EnvSet : EnvMap := fun n => if n = "VAR".toList then some "s3val".toList else none

/-- The counterexample template text, the single reference with the spelled-out
fallback syntax of the claim: a dollar sign, an opening brace, `VAR:-default`, and a
closing brace. -/
def c7Text : List Char := '$' :: lbrace :: ("VAR:-default".toList ++ [rbrace])

/-- Scenario S1: five documents arriving in order, one per batch — one missing the required
timestamp field, two valid ones with timestamps 1000 and 1001, one malformed, and a valid
one with timestamp 1002; the batch deltas chain from 0 to 5. -/
def s1Msgs : List IndexerMsg :=
  [IndexerMsg.rawDocBatch ⟨[⟨100, DocOutcome.missingField⟩], (0, 1)⟩,
   IndexerMsg.rawDocBatch ⟨[⟨100, DocOutcome.document (some 1000) 0⟩], (1, 2)⟩,
   IndexerMsg.rawDocBatch ⟨[⟨100, DocOutcome.document (some 1001) 0⟩], (2, 3)⟩,
   IndexerMsg.rawDocBatch ⟨[⟨100, DocOutcome.parsingError⟩], (3, 4)⟩,
   IndexerMsg.rawDocBatch ⟨[⟨100, DocOutcome.document (some 1002) 0⟩], (4, 5)⟩]

/-- The indexer of scenario S1, with `split_num_docs_target = 3`. -/
def s1Indexer : Indexer := ⟨"test-index", 3, none, IndexerCounters.zero, 0⟩

/-- Scenario S6 oracle: every S3 call succeeds except part 5, which fails permanently on
every attempt. -/
def s6Oracle : S3Oracle :=
  ⟨fun _ => CallOutcome.success, fun _ => CallOutcome.success,
   fun i _ => if i == 5 then CallOutcome.permanent else CallOutcome.success,
   fun _ => CallOutcome.success, fun _ => CallOutcome.success⟩

/-- Concrete data for the cache theorems: a capacity-5 cache filled by two admitted puts. -/
def c6Ops : List CacheOp := [CacheOp.put "3" 0 3 [1, 2, 3], CacheOp.put "2" 0 2 [4, 5]]

def c6Cache : SliceCache := (SliceCache.withCapacity 5).runOps c6Ops

/- ### Theorems -/

theorem cacheWeight_nil : cacheWeight [] = 0 := rfl

theorem evictLruAux_weight_le (cap : Nat) :
    ∀ (fuel : Nat) (entries : CacheEntries), entries.length ≤ fuel →
      cacheWeight (evictLruAux cap fuel entries) ≤ cap := by
  intro fuel
  induction fuel with
  | zero =>
    intro entries h
    have : entries = [] := List.length_eq_zero.mp (Nat.le_zero.mp h)
    simp [this, evictLruAux, cacheWeight_nil]
  | succ n ih =>
    intro entries h
    rw [evictLruAux]
    by_cases hw : cacheWeight entries ≤ cap
    · simp [hw]
    · simp only [hw, if_false]
      apply ih
      have := List.length_dropLast entries
      omega

theorem evictLruAux_take (cap : Nat) :
    ∀ (fuel : Nat) (entries : CacheEntries),
      ∃ k, evictLruAux cap fuel entries = entries.take k := by
  intro fuel
  induction fuel with
  | zero =>
    intro entries
    exact ⟨entries.length, by simp [evictLruAux]⟩
  | succ n ih =>
    intro entries
    rw [evictLruAux]
    by_cases hw : cacheWeight entries ≤ cap
    · exact ⟨entries.length, by simp [hw]⟩
    · simp only [hw, if_false]
      obtain ⟨k, hk⟩ := ih entries.dropLast
      refine ⟨min k (entries.length - 1), ?_⟩
      rw [hk, List.dropLast_eq_take, List.take_take]

theorem evictLruAux_cons (cap : Nat) (e : SliceAddress × Bytes) (he : entryWeight e ≤ cap) :
    ∀ (fuel : Nat) (rest : CacheEntries),
      ∃ t, evictLruAux cap fuel (e :: rest) = e :: t := by
  intro fuel
  induction fuel with
  | zero => intro rest; exact ⟨rest, by simp [evictLruAux]⟩
  | succ n ih =>
    intro rest
    rw [evictLruAux]
    by_cases hw : cacheWeight (e :: rest) ≤ cap
    · exact ⟨rest, by simp [hw]⟩
    · simp only [hw, if_false]
      match rest with
      | [] =>
        exfalso
        apply hw
        simp [cacheWeight, entryWeight] at he ⊢
        exact he
      | r :: rs =>
        have hdl : (e :: r :: rs).dropLast = e :: (r :: rs).dropLast := rfl
        rw [hdl]
        exact ih (r :: rs).dropLast

theorem findEntry_take_none (addr : SliceAddress) :
    ∀ (l : CacheEntries) (k : Nat), findEntry addr l = none →
      findEntry addr (l.take k) = none := by
  intro l
  induction l with
  | nil => intro k _; simp [List.take_nil, findEntry]
  | cons e rest ih =>
    intro k h
    rw [findEntry] at h
    by_cases he : e.1 = addr
    · simp [he] at h
    · match k with
      | 0 => simp [findEntry]
      | k + 1 =>
        rw [List.take_succ_cons, findEntry]
        simp only [he, if_false] at h ⊢
        exact ih k h

theorem findEntry_removeEntry_ne (a b : SliceAddress) (hne : a ≠ b) :
    ∀ l : CacheEntries, findEntry a (removeEntry b l) = findEntry a l := by
  intro l
  induction l with
  | nil => rfl
  | cons e rest ih =>
    by_cases he : e.1 = b
    · have ha : e.1 ≠ a := by rw [he]; exact fun h => hne h.symm
      rw [removeEntry, if_pos he, ih, findEntry, if_neg ha]
    · rw [removeEntry, if_neg he, findEntry, findEntry]
      by_cases ha : e.1 = a
      · rw [if_pos ha, if_pos ha]
      · rw [if_neg ha, if_neg ha, ih]

theorem cacheWeight_put_le (cap : Nat) (c : SliceCache) (path : String)
    (rStart rStop : Nat) (bytes : Bytes) (hcap : c.capacity = some cap)
    (hw : cacheWeight c.entries ≤ cap) :
    cacheWeight (c.put path rStart rStop bytes).entries ≤ cap := by
  rw [SliceCache.put, hcap]
  by_cases hg : rStop - rStart > cap
  · simpa [hg] using hw
  · simp only [hg, if_false]
    exact evictLruAux_weight_le cap _ _ (Nat.le_refl _)

theorem put_capacity (c : SliceCache) (path : String) (rStart rStop : Nat) (bytes : Bytes) :
    (c.put path rStart rStop bytes).capacity = c.capacity := by
  rw [SliceCache.put]
  match hc : c.capacity with
  | some cap =>
    by_cases hg : rStop - rStart > cap
    · simp [hg, hc]
    · simp [hg, hc]
  | none => rfl

theorem runOps_weight_le (cap : Nat) :
    ∀ (ops : List CacheOp) (c : SliceCache), c.capacity = some cap →
      cacheWeight c.entries ≤ cap → cacheWeight (c.runOps ops).entries ≤ cap := by
  intro ops
  induction ops with
  | nil => intro c _ hw; exact hw
  | cons op rest ih =>
    intro c hcap hw
    match op with
    | CacheOp.put p a b bytes =>
      rw [SliceCache.runOps]
      exact ih _ ((put_capacity c p a b bytes).trans hcap)
        (cacheWeight_put_le cap c p a b bytes hcap hw)
    | CacheOp.get p a b =>
      rw [SliceCache.runOps]
      exact ih c hcap hw

/-- C6: for a bounded slice cache of capacity `C`, the total of the cached bytes never
exceeds `C` on any sequence of calls; a put only drops entries from the least-recently-used
end of the refreshed entry list; an entry whose byte range is longer than `C` is not
admitted (a get for its key still finds nothing); and an admitted entry is returned intact
by a get on the same `(path, range)` key. -/
theorem slice_cache_bounded_lru (cap : Nat) (ops : List CacheOp) (c : SliceCache)
    (path : String) (rStart rStop : Nat) (bytes : Bytes)
    (hcap : c.capacity = some cap) :
    cacheWeight ((SliceCache.withCapacity cap).runOps ops).entries ≤ cap
    ∧ ((∃ k, (c.put path rStart rStop bytes).entries
          = ((⟨path, rStart, rStop⟩, bytes)
              :: removeEntry ⟨path, rStart, rStop⟩ c.entries).take k)
        ∨ c.put path rStart rStop bytes = c)
    ∧ (rStop - rStart > cap → c.get path rStart rStop = none →
        (c.put path rStart rStop bytes).get path rStart rStop = none)
    ∧ (rStop - rStart ≤ cap → bytes.length ≤ cap →
        (c.put path rStart rStop bytes).get path rStart rStop = some bytes) := by
  refine ⟨?_, ?_, ?_, ?_⟩
  · exact runOps_weight_le cap ops _ rfl (by simp [SliceCache.withCapacity, cacheWeight_nil])
  · rw [SliceCache.put, hcap]
    by_cases hg : rStop - rStart > cap
    · right; simp [hg]
    · left
      simp only [hg, if_false]
      exact evictLruAux_take cap _ _
  · intro hg _
    rw [SliceCache.put, hcap]
    simp only [hg, if_true]
    assumption
  · intro hg hb
    rw [SliceCache.put, hcap]
    have hg' : ¬ rStop - rStart > cap := by omega
    simp only [hg', if_false]
    rw [SliceCache.get]
    obtain ⟨t, ht⟩ :=
      evictLruAux_cons cap (⟨path, rStart, rStop⟩, bytes) hb
        ((⟨path, rStart, rStop⟩, bytes) :: removeEntry ⟨path, rStart, rStop⟩ c.entries).length
        (removeEntry ⟨path, rStart, rStop⟩ c.entries)
    unfold evictLru
    rw [ht, findEntry]
    simp

/-- Witness for C6: on the capacity-5 cache holding entries of weight 3 and 2, the admitted
put of two more bytes is returned intact by the following get. -/
theorem slice_cache_bounded_lru_witness :
    (c6Cache.put "4" 0 2 [6, 7]).get "4" 0 2 = some [6, 7] :=
  (slice_cache_bounded_lru 5 c6Ops c6Cache "4" 0 2 [6, 7] (by decide)).2.2.2
    (by decide) (by decide)

/-- C9: the slice cache returns an entry only for an exactly matching `(path, byte_range)`
key: a get with any other key, which the cache did not already hold, still returns `none`
after the put, in particular for a strict sub-range of the stored range. -/
theorem slice_cache_get_exact_key (c : SliceCache) (p p' : String)
    (a b a' b' : Nat) (bytes : Bytes)
    (hne : (⟨p', a', b'⟩ : SliceAddress) ≠ ⟨p, a, b⟩)
    (hmiss : c.get p' a' b' = none) :
    (c.put p a b bytes).get p' a' b' = none := by
  rw [SliceCache.get] at hmiss ⊢
  rw [SliceCache.put]
  match hc : c.capacity with
  | some cap =>
    by_cases hg : b - a > cap
    · simpa [hg] using hmiss
    · simp only [hg, if_false]
      obtain ⟨k, hk⟩ :=
        evictLruAux_take cap
          ((⟨p, a, b⟩, bytes) :: removeEntry ⟨p, a, b⟩ c.entries).length
          ((⟨p, a, b⟩, bytes) :: removeEntry ⟨p, a, b⟩ c.entries)
      unfold evictLru
      rw [hk]
      apply findEntry_take_none
      rw [findEntry]
      have : (⟨p, a, b⟩ : SliceAddress) ≠ ⟨p', a', b'⟩ := fun h => hne h.symm
      simp only [this, if_false]
      rw [findEntry_removeEntry_ne _ _ hne]
      exact hmiss
  | none =>
    simp only
    rw [findEntry]
    have : (⟨p, a, b⟩ : SliceAddress) ≠ ⟨p', a', b'⟩ := fun h => hne h.symm
    simp only [this, if_false]
    rw [findEntry_removeEntry_ne _ _ hne]
    exact hmiss

/-- Witness for C9: after caching the range `0..6` of a path, the strict sub-range `2..3`
of the same path misses. -/
theorem slice_cache_get_exact_key_witness :
    ((SliceCache.withCapacity 10).put "p" 0 6 [1, 2, 3, 4, 5, 6]).get "p" 2 3 = none :=
  slice_cache_get_exact_key (SliceCache.withCapacity 10) "p" "p" 0 6 2 3 [1, 2, 3, 4, 5, 6]
    (by decide) (by decide)

/-- C1: in the upload task, for every split of the batch, a storage put of the split's
payload only happens after the metastore `stage_split` call for that split succeeded (the
two calls appear in this order in the call trace), and when `stage_split` fails for a split
its payload is never stored. -/
theorem uploader_stage_before_store (splits : List PackagedSplit)
    (stageOk storeOk : String → Bool) (s : String) :
    (UploadEvent.storeSplit s ∈ (upload_splits_loop splits stageOk storeOk).1 →
      stageOk s = true ∧
        List.Sublist [UploadEvent.stageSplit s, UploadEvent.storeSplit s]
          ((upload_splits_loop splits stageOk storeOk).1))
    ∧ (stageOk s = false →
        UploadEvent.storeSplit s ∉ (upload_splits_loop splits stageOk storeOk).1) := by
  have main : UploadEvent.storeSplit s ∈ (upload_splits_loop splits stageOk storeOk).1 →
      stageOk s = true ∧
        List.Sublist [UploadEvent.stageSplit s, UploadEvent.storeSplit s]
          ((upload_splits_loop splits stageOk storeOk).1) := by
    induction splits with
    | nil => intro h; simp [upload_splits_loop] at h
    | cons sp rest ih =>
      intro h
      cases hst : stageOk sp.splitId with
      | false =>
        simp only [upload_splits_loop, stage_and_upload_split, hst, if_false,
          Bool.false_eq_true] at h
        simp at h
      | true =>
        cases hso : storeOk sp.splitId with
        | true =>
          simp only [upload_splits_loop, stage_and_upload_split, hst, hso, if_true] at h ⊢
          rcases List.mem_append.mp h with hblk | hrest
          · have hs : s = sp.splitId := by
              simp at hblk
              exact hblk
            subst hs
            exact ⟨hst, List.sublist_append_left _ _⟩
          · obtain ⟨h1, h2⟩ := ih hrest
            exact ⟨h1, h2.trans (List.sublist_append_right _ _)⟩
        | false =>
          simp only [upload_splits_loop, stage_and_upload_split, hst, hso, if_true,
            if_false, Bool.false_eq_true] at h ⊢
          have hs : s = sp.splitId := by
            simp at h
            exact h
          subst hs
          exact ⟨hst, List.Sublist.refl _⟩
  refine ⟨main, fun hfail hmem => ?_⟩
  have := (main hmem).1
  rw [hfail] at this
  exact Bool.false_ne_true this

/-- Witness for C1: a one-split batch with both calls succeeding; the store call is in the
trace, so staging succeeded and preceded it. -/
theorem uploader_stage_before_store_witness :
    (fun _ => true : String → Bool) "split-a" = true ∧
      List.Sublist [UploadEvent.stageSplit "split-a", UploadEvent.storeSplit "split-a"]
        ((upload_splits_loop [⟨"split-a"⟩] (fun _ => true) (fun _ => true)).1) :=
  (uploader_stage_before_store [⟨"split-a"⟩] (fun _ => true) (fun _ => true) "split-a").1
    (by decide)

/-- C2 counterexample: on the nominal handler execution both steps happen, but the oneshot
reply channel is enqueued in the sequencer mailbox strictly before the upload permit is
acquired, so the claimed order (permit first, enqueue thereafter) does not hold. -/
theorem uploader_permit_order_counterexample :
    ¬ (UploaderAction.acquirePermit ∈ (uploader_handle true true false).1
        ∧ UploaderAction.enqueueSequencer ∈ (uploader_handle true true false).1
        ∧ (uploader_handle true true false).1.indexOf UploaderAction.acquirePermit
            < (uploader_handle true true false).1.indexOf UploaderAction.enqueueSequencer) := by
  decide

/-- C2 (amended): for every handled `PackagedSplitBatch`, the uploader first obtains the
oneshot `SplitUpdate` reply channel and enqueues it in the sequencer's mailbox, and only
thereafter acquires a permit from the process-wide semaphore whose capacity is 4: whenever
the permit acquisition appears in the handler trace, the sequencer enqueue appears strictly
before it. -/
theorem uploader_enqueue_before_permit :
    MAX_CONCURRENT_SPLIT_UPLOAD = 4
    ∧ ∀ sendOk acquireOk killSwitchDead : Bool,
        UploaderAction.acquirePermit ∈ (uploader_handle sendOk acquireOk killSwitchDead).1 →
          UploaderAction.enqueueSequencer
              ∈ (uploader_handle sendOk acquireOk killSwitchDead).1
            ∧ (uploader_handle sendOk acquireOk killSwitchDead).1.indexOf
                  UploaderAction.enqueueSequencer
                < (uploader_handle sendOk acquireOk killSwitchDead).1.indexOf
                    UploaderAction.acquirePermit := by
  decide

/-- Witness for C2 (amended): the nominal execution acquires the permit, and the enqueue
indeed sits earlier in the trace. -/
theorem uploader_enqueue_before_permit_witness :
    UploaderAction.enqueueSequencer ∈ (uploader_handle true true false).1
      ∧ (uploader_handle true true false).1.indexOf UploaderAction.enqueueSequencer
          < (uploader_handle true true false).1.indexOf UploaderAction.acquirePermit :=
  uploader_enqueue_before_permit.2 true true false (by decide)

/-- C10: a successfully handled `SplitUpdate` increments `num_published_splits` by exactly
one and leaves `num_replace_operations` unchanged, whatever the message (including a pure
replacement with no checkpoint delta); the failing path leaves both counters unchanged, so
no handler path ever increments `num_replace_operations`. -/
theorem publisher_counters_on_split_update (counters : PublisherCounters) (msg : SplitUpdate)
    (hasSourceMailbox : Bool) :
    ((publisher_handle_split_update counters msg true hasSourceMailbox).1.numPublishedSplits
        = counters.numPublishedSplits + 1
      ∧ (publisher_handle_split_update counters msg true
            hasSourceMailbox).1.numReplaceOperations
        = counters.numReplaceOperations)
    ∧ (publisher_handle_split_update counters msg false hasSourceMailbox).1 = counters := by
  refine ⟨⟨?_, ?_⟩, ?_⟩ <;> simp [publisher_handle_split_update]

/-- C3: in scenario S1 the indexer emits exactly one `IndexedSplitBatch`, upon processing
the third valid document (the first four messages produce no batch); the batch holds a
single split with `num_docs = 3` and `time_range = [1000, 1002]`, and the counters
afterwards read one parse error, one missing field and three valid documents. -/
theorem indexer_s1_scenario :
    (s1Indexer.runMsgs s1Msgs).map
        (fun r => (r.2, r.1.counters.numParseErrors, r.1.counters.numMissingFields,
          r.1.counters.numValidDocs))
      = some ([IndexerEffect.scheduleCommitTimeout 0,
               IndexerEffect.emitSplitBatch [⟨3, 300, some (1000, 1002)⟩] (some (0, 5))],
              1, 1, 3)
    ∧ (s1Indexer.runMsgs (s1Msgs.take 4)).map (fun r => r.2)
      = some [IndexerEffect.scheduleCommitTimeout 0] := by
  constructor <;> rfl

theorem processDocs_invalid :
    ∀ (docs : List RawDoc),
      (∀ d ∈ docs,
        d.outcome = DocOutcome.parsingError ∨ d.outcome = DocOutcome.missingField) →
      ∀ (counters : IndexerCounters) (splits : List (Nat × IndexedSplit)),
        (processDocs counters splits docs).1.numDocsInWorkbench = counters.numDocsInWorkbench
        ∧ (processDocs counters splits docs).2 = splits := by
  intro docs
  induction docs with
  | nil => intro _ c s; exact ⟨rfl, rfl⟩
  | cons d rest ih =>
    intro h c s
    have hd := h d (List.mem_cons_self d rest)
    have hrest := fun d' hm => h d' (List.mem_cons_of_mem d hm)
    have step : processDocs c s (d :: rest)
        = processDocs (processDoc (c, s) d).1 (processDoc (c, s) d).2 rest := by
      rw [processDocs, processDocs, List.foldl_cons]
    rw [step]
    obtain ⟨h1, h2⟩ := ih hrest (processDoc (c, s) d).1 (processDoc (c, s) d).2
    rw [h1, h2]
    rcases hd with hd | hd <;> simp [processDoc, hd]

/-- C4: when a commit trigger fires on a workbench all of whose documents were invalid
(each a parse error or a missing required field), the indexer emits no `IndexedSplitBatch`
and issues exactly one `publish_splits` request with empty `split_ids`, empty
`replaced_split_ids`, and the checkpoint delta accumulated for the workbench. -/
theorem indexer_all_invalid_publishes_empty (indexId : String) (target : Nat)
    (docs : List RawDoc) (lo hi : Nat)
    (htarget : 0 < target)
    (hinvalid : ∀ d ∈ docs,
      d.outcome = DocOutcome.parsingError ∨ d.outcome = DocOutcome.missingField) :
    (Indexer.runMsgs ⟨indexId, target, none, IndexerCounters.zero, 0⟩
        [IndexerMsg.rawDocBatch ⟨docs, (lo, hi)⟩, IndexerMsg.commitTimeout 0]).map
        (fun r => r.2)
      = some [IndexerEffect.scheduleCommitTimeout 0,
              IndexerEffect.publishSplits indexId [] [] (some (lo, hi))] := by
  obtain ⟨h1, h2⟩ := processDocs_invalid docs hinvalid IndexerCounters.zero []
  have hzero : IndexerCounters.zero.numDocsInWorkbench = 0 := rfl
  have hlt : ¬ ((processDocs IndexerCounters.zero [] docs).1.numDocsInWorkbench ≥ target) := by
    rw [h1, hzero]; omega
  simp only [Indexer.runMsgs, Indexer.handleMsg, Indexer.processBatch,
    Indexer.processBatchInner, extendDelta, Indexer.handleCommitTimeout,
    Indexer.sendToPackager, hlt, if_false, h2]
  simp [List.isEmpty]

/-- C8: the five quantiles displayed under the label `1%, 25%, 50%, 75%, 99%` are not the
quantiles at those nominal ranks: at the concrete sample 10..80 the tuple the code computes
differs from the nominal one, because the displayed 25% entry is the 50th percentile and the
displayed 99% entry is the 75th percentile. -/
theorem print_descriptive_stats_rank_typo :
    displayedQuantiles percentileSpec c8FailingInput
        ≠ (percentileSpec c8FailingInput 1, percentileSpec c8FailingInput 25,
           percentileSpec c8FailingInput 50, percentileSpec c8FailingInput 75,
           percentileSpec c8FailingInput 99)
      ∧ (displayedQuantiles percentileSpec c8FailingInput).2.1
          = percentileSpec c8FailingInput 50
      ∧ (displayedQuantiles percentileSpec c8FailingInput).2.2.2.2
          = percentileSpec c8FailingInput 75 := by
  refine ⟨?_, rfl, rfl⟩
  decide

theorem wordChar_not_space (c : Char) (h : isWordChar c = true) : isSpaceChar c = false := by
  simp only [isWordChar, Bool.or_eq_true, Bool.and_eq_true, decide_eq_true_eq,
    beq_iff_eq] at h
  simp only [isSpaceChar, Bool.or_eq_false_iff, Bool.and_eq_false_iff, beq_eq_false_iff_ne,
    ne_eq, decide_eq_false_iff_not, not_le]
  omega

theorem takeWhile_stop (p : Char → Bool) (c : Char) (s : List Char) (hc : p c = false) :
    (c :: s).takeWhile p = [] := by
  simp [List.takeWhile_cons, hc]

theorem dropWhile_stop (p : Char → Bool) (c : Char) (s : List Char) (hc : p c = false) :
    (c :: s).dropWhile p = c :: s := by
  simp [List.dropWhile_cons, hc]

theorem takeWhile_all_append (p : Char → Bool) :
    ∀ (l m : List Char), (∀ c ∈ l, p c = true) →
      (l ++ m).takeWhile p = l ++ m.takeWhile p := by
  intro l
  induction l with
  | nil => intro m _; rfl
  | cons c l' ih =>
    intro m h
    have hc := h c (List.mem_cons_self c l')
    simp only [List.cons_append, List.takeWhile_cons, hc, if_true]
    rw [ih m (fun c' hm => h c' (List.mem_cons_of_mem c hm))]

theorem dropWhile_all_append (p : Char → Bool) :
    ∀ (l m : List Char), (∀ c ∈ l, p c = true) →
      (l ++ m).dropWhile p = m.dropWhile p := by
  intro l
  induction l with
  | nil => intro m _; rfl
  | cons c l' ih =>
    intro m h
    have hc := h c (List.mem_cons_self c l')
    simp only [List.cons_append, List.dropWhile_cons, hc, if_true]
    exact ih m (fun c' hm => h c' (List.mem_cons_of_mem c hm))

theorem closesAfterSpaces_cons_nonspace (c : Char) (s : List Char)
    (hc : isSpaceChar c = false) (hne : (c == rbrace) = false) :
    closesAfterSpaces (c :: s) = false := by
  rw [closesAfterSpaces, dropWhile_stop _ _ _ hc]
  exact hne

theorem closesAfterSpaces_cons_space (c : Char) (s : List Char)
    (hc : isSpaceChar c = true) : closesAfterSpaces (c :: s) = closesAfterSpaces s := by
  rw [closesAfterSpaces, closesAfterSpaces, List.dropWhile_cons, if_pos hc]

theorem closesAfterSpaces_append_false :
    ∀ (l m : List Char), rbrace ∉ l → closesAfterSpaces m = false →
      closesAfterSpaces (l ++ m) = false := by
  intro l
  induction l with
  | nil => intro m _ hm; exact hm
  | cons c l' ih =>
    intro m hno hm
    have hcne : ¬ (c = rbrace) := fun h => hno (h ▸ List.mem_cons_self c l')
    rw [List.cons_append]
    cases hc : isSpaceChar c with
    | true =>
      rw [closesAfterSpaces_cons_space _ _ hc]
      exact ih m (fun hmem => hno (List.mem_cons_of_mem c hmem)) hm
    | false =>
      exact closesAfterSpaces_cons_nonspace _ _ hc (beq_eq_false_iff_ne.mpr hcne)

theorem assemble_cons (sg : TemplateSeg) (rest : List TemplateSeg) :
    assemble (sg :: rest) = assembleSeg sg ++ assemble rest := by
  rw [assemble, assemble, List.map_cons, List.flatten_cons]

theorem litOk_props (l : List Char) (h : litOk l = true) : '$' ∉ l ∧ rbrace ∉ l := by
  simpa [litOk] using h

theorem closesAfterSpaces_assemble :
    ∀ segs : List TemplateSeg, segsOk segs = true →
      closesAfterSpaces (assemble segs) = false := by
  intro segs
  induction segs with
  | nil => intro _; rfl
  | cons sg rest ih =>
    intro h
    rw [assemble_cons]
    match sg with
    | TemplateSeg.lit l =>
      rw [segsOk, Bool.and_eq_true] at h
      exact closesAfterSpaces_append_false l (assemble rest) (litOk_props l h.1).2 (ih h.2)
    | TemplateSeg.ref n d =>
      match d with
      | none =>
        rw [assembleSeg, List.cons_append]
        exact closesAfterSpaces_cons_nonspace _ _ (by decide) (by decide)
      | some dv =>
        rw [assembleSeg, List.cons_append]
        exact closesAfterSpaces_cons_nonspace _ _ (by decide) (by decide)

theorem takeWhile_nonspace_assemble (rest : List TemplateSeg)
    (h : afterRefOk rest = true) :
    (assemble rest).takeWhile (fun c => !isSpaceChar c) = [] := by
  match rest with
  | [] => rfl
  | TemplateSeg.lit (c :: l) :: rest' =>
    rw [afterRefOk] at h
    rw [assemble_cons, assembleSeg, List.cons_append]
    exact takeWhile_stop _ _ _ (by simp [h])
  | TemplateSeg.lit [] :: rest' => simp [afterRefOk] at h
  | TemplateSeg.ref _ _ :: rest' => simp [afterRefOk] at h

theorem matchAt_not_dollar (c : Char) (s : List Char) (h : ¬ c = '$') :
    matchAt (c :: s) = none := by
  match s with
  | [] => rfl
  | c2 :: s' => simp [matchAt, h]

theorem matchAt_ref_none (n : List Char) (rest : List TemplateSeg)
    (hne : n ≠ []) (hword : ∀ c ∈ n, isWordChar c = true)
    (hafter : afterRefOk rest = true) (hrest : segsOk rest = true) :
    matchAt (assembleSeg (TemplateSeg.ref n none) ++ assemble rest)
      = some (⟨n, none⟩, assemble rest) := by
  obtain ⟨c, n', rfl⟩ := List.exists_cons_of_ne_nil hne
  have hc : isSpaceChar c = false :=
    wordChar_not_space c (hword c (List.mem_cons_self c n'))
  have hshape : assembleSeg (TemplateSeg.ref (c :: n') none) ++ assemble rest
      = '$' :: lbrace :: (c :: (n' ++ rbrace :: assemble rest)) := by
    simp [assembleSeg]
  have h1 : (c :: (n' ++ rbrace :: assemble rest)).dropWhile isSpaceChar
      = c :: (n' ++ rbrace :: assemble rest) := dropWhile_stop _ _ _ hc
  have h2 : (c :: (n' ++ rbrace :: assemble rest)).takeWhile isWordChar = c :: n' := by
    have hsplit : (c :: n') ++ (rbrace :: assemble rest)
        = c :: (n' ++ rbrace :: assemble rest) := by simp
    rw [← hsplit, takeWhile_all_append _ _ _ hword,
      takeWhile_stop _ _ _ (by decide : isWordChar rbrace = false), List.append_nil]
  have h3 : (c :: (n' ++ rbrace :: assemble rest)).drop (c :: n').length
      = rbrace :: assemble rest := by
    have hsplit : (c :: n') ++ (rbrace :: assemble rest)
        = c :: (n' ++ rbrace :: assemble rest) := by simp
    rw [← hsplit, List.drop_left]
  have h4 : greedyDefaultLen (rbrace :: assemble rest) = none := by
    rw [greedyDefaultLen]
    have hrun : (rbrace :: assemble rest).takeWhile (fun ch => !isSpaceChar ch)
        = [rbrace] := by
      rw [List.takeWhile_cons]
      simp only [(by decide : (!isSpaceChar rbrace) = true), if_true,
        takeWhile_nonspace_assemble rest hafter]
    rw [hrun]
    show greedyLenGo (rbrace :: assemble rest) 1 = none
    rw [greedyLenGo]
    simp only [List.drop_succ_cons, List.drop_zero,
      closesAfterSpaces_assemble rest hrest, if_false]
    rfl
  have h5 : (rbrace :: assemble rest).dropWhile isSpaceChar = rbrace :: assemble rest :=
    dropWhile_stop _ _ _ (by decide)
  rw [hshape, matchAt]
  simp only [if_pos rfl, h1, h2, h3, h4, h5, List.isEmpty_cons, Bool.false_eq_true,
    if_false, List.head?_cons]
  have hcolon : ¬ (some rbrace = some (':' : Char)) := by decide
  simp only [hcolon, if_false, h4, h5]
  simp

theorem matchAt_ref_some (n dv : List Char) (rest : List TemplateSeg)
    (hne : n ≠ []) (hword : ∀ c ∈ n, isWordChar c = true)
    (hdv : dv ≠ []) (hdvchar : ∀ c ∈ dv, isSpaceChar c = false ∧ c ≠ rbrace)
    (hafter : afterRefOk rest = true) (hrest : segsOk rest = true) :
    matchAt (assembleSeg (TemplateSeg.ref n (some dv)) ++ assemble rest)
      = some (⟨n, some dv⟩, assemble rest) := by
  obtain ⟨c, n', rfl⟩ := List.exists_cons_of_ne_nil hne
  have hc : isSpaceChar c = false :=
    wordChar_not_space c (hword c (List.mem_cons_self c n'))
  have hshape : assembleSeg (TemplateSeg.ref (c :: n') (some dv)) ++ assemble rest
      = '$' :: lbrace :: (c :: (n' ++ ':' :: (dv ++ rbrace :: assemble rest))) := by
    simp [assembleSeg]
  have h1 : (c :: (n' ++ ':' :: (dv ++ rbrace :: assemble rest))).dropWhile isSpaceChar
      = c :: (n' ++ ':' :: (dv ++ rbrace :: assemble rest)) := dropWhile_stop _ _ _ hc
  have h2 : (c :: (n' ++ ':' :: (dv ++ rbrace :: assemble rest))).takeWhile isWordChar
      = c :: n' := by
    have hsplit : (c :: n') ++ (':' :: (dv ++ rbrace :: assemble rest))
        = c :: (n' ++ ':' :: (dv ++ rbrace :: assemble rest)) := by simp
    rw [← hsplit, takeWhile_all_append _ _ _ hword,
      takeWhile_stop _ _ _ (by decide : isWordChar ':' = false), List.append_nil]
  have h3 : (c :: (n' ++ ':' :: (dv ++ rbrace :: assemble rest))).drop (c :: n').length
      = ':' :: (dv ++ rbrace :: assemble rest) := by
    have hsplit : (c :: n') ++ (':' :: (dv ++ rbrace :: assemble rest))
        = c :: (n' ++ ':' :: (dv ++ rbrace :: assemble rest)) := by simp
    rw [← hsplit, List.drop_left]
  have hdropdv : (dv ++ rbrace :: assemble rest).drop dv.length
      = rbrace :: assemble rest := List.drop_left dv _
  have hdropdv1 : (dv ++ rbrace :: assemble rest).drop (dv.length + 1)
      = assemble rest := by
    have hsplit : (dv ++ [rbrace]) ++ assemble rest = dv ++ rbrace :: assemble rest := by
      simp
    have hlen : (dv ++ [rbrace]).length = dv.length + 1 := by simp
    rw [← hsplit, ← hlen, List.drop_left]
  have hclose : closesAfterSpaces (rbrace :: assemble rest) = true := by
    rw [closesAfterSpaces, dropWhile_stop _ _ _ (by decide)]
    simp
  have h4 : greedyDefaultLen (dv ++ rbrace :: assemble rest) = some dv.length := by
    rw [greedyDefaultLen]
    have hrun : (dv ++ rbrace :: assemble rest).takeWhile (fun ch => !isSpaceChar ch)
        = dv ++ [rbrace] := by
      rw [takeWhile_all_append _ _ _ (fun ch hm => by simp [(hdvchar ch hm).1]),
        List.takeWhile_cons]
      simp only [(by decide : (!isSpaceChar rbrace) = true), if_true,
        takeWhile_nonspace_assemble rest hafter]
    rw [hrun]
    have hlen : (dv ++ [rbrace]).length = dv.length + 1 := by simp
    rw [hlen]
    obtain ⟨d0, dv', rfl⟩ := List.exists_cons_of_ne_nil hdv
    rw [greedyLenGo]
    simp only [hdropdv1, closesAfterSpaces_assemble rest hrest, if_false]
    have hlen2 : (d0 :: dv').length = dv'.length + 1 := rfl
    rw [hlen2, greedyLenGo]
    rw [← hlen2, hdropdv, hclose]
    simp
  have htake : (dv ++ rbrace :: assemble rest).take dv.length = dv := List.take_left dv _
  have h5 : (rbrace :: assemble rest).dropWhile isSpaceChar = rbrace :: assemble rest :=
    dropWhile_stop _ _ _ (by decide)
  rw [hshape, matchAt]
  simp only [if_pos rfl, h1, h2, h3, List.isEmpty_cons, Bool.false_eq_true, if_false,
    List.head?_cons, List.tail_cons]
  have hcolon : (some (':' : Char) = some ':') := rfl
  simp only [hcolon, if_true, h4, hdropdv, h5, htake]

theorem refOk_props (n : List Char) (d : Option (List Char)) (h : refOk n d = true) :
    n ≠ [] ∧ (∀ c ∈ n, isWordChar c = true) ∧
      (∀ dv, d = some dv → dv ≠ [] ∧ ∀ c ∈ dv, isSpaceChar c = false ∧ c ≠ rbrace) := by
  rw [refOk, Bool.and_eq_true, Bool.and_eq_true] at h
  obtain ⟨⟨hne, hall⟩, hd⟩ := h
  refine ⟨?_, ?_, ?_⟩
  · intro hnil; rw [hnil] at hne; simp at hne
  · exact fun c hm => List.all_eq_true.mp hall c hm
  · intro dv hdv
    rw [hdv, dfltOk] at hd
    rw [Bool.and_eq_true] at hd
    constructor
    · intro hnil
      rw [hnil] at hd
      simp at hd
    · intro c hm
      have hc := List.all_eq_true.mp hd.2 c hm
      rw [Bool.and_eq_true, Bool.not_eq_true', bne_iff_ne] at hc
      exact hc

theorem scanCaptures_skip (l m : List Char) (hd : '$' ∉ l) :
    ∀ fuel, (l ++ m).length ≤ fuel →
      scanCaptures fuel (l ++ m) = scanCaptures (fuel - l.length) m := by
  induction l with
  | nil => intro fuel _; simp
  | cons c l' ih =>
    intro fuel h
    match fuel with
    | 0 => simp at h
    | f + 1 =>
      have hc : ¬ c = '$' := fun hc => hd (hc ▸ List.mem_cons_self c l')
      have hd' : '$' ∉ l' := fun hm => hd (List.mem_cons_of_mem c hm)
      have hlen : (l' ++ m).length ≤ f := by
        simp only [List.cons_append, List.length_cons] at h
        omega
      rw [List.cons_append, scanCaptures, matchAt_not_dollar c _ hc]
      rw [ih hd' f hlen]
      have harith : f + 1 - (c :: l').length = f - l'.length := by
        simp only [List.length_cons]
        omega
      rw [harith]

theorem renderScan_skip (data : TemplateData) (l m : List Char) (hd : '$' ∉ l) :
    ∀ fuel, (l ++ m).length ≤ fuel →
      renderScan data fuel (l ++ m)
        = (renderScan data (fuel - l.length) m).map (fun out => l ++ out) := by
  induction l with
  | nil =>
    intro fuel _
    simp only [List.nil_append, List.length_nil, Nat.sub_zero]
    cases renderScan data fuel m <;> simp
  | cons c l' ih =>
    intro fuel h
    match fuel with
    | 0 => simp at h
    | f + 1 =>
      have hc : ¬ c = '$' := fun hc => hd (hc ▸ List.mem_cons_self c l')
      have hd' : '$' ∉ l' := fun hm => hd (List.mem_cons_of_mem c hm)
      have hlen : (l' ++ m).length ≤ f := by
        simp only [List.cons_append, List.length_cons] at h
        omega
      rw [List.cons_append, renderScan, matchAt_not_dollar c _ hc]
      rw [ih hd' f hlen]
      have harith : f + 1 - (c :: l').length = f - l'.length := by
        simp only [List.length_cons]
        omega
      rw [harith]
      cases renderScan data (f - l'.length) m <;> simp

theorem scanCaptures_assemble :
    ∀ (segs : List TemplateSeg) (fuel : Nat), segsOk segs = true →
      (assemble segs).length ≤ fuel →
      scanCaptures fuel (assemble segs) = segCaptures segs := by
  intro segs
  induction segs with
  | nil =>
    intro fuel _ _
    match fuel with
    | 0 => rfl
    | f + 1 => rfl
  | cons sg rest ih =>
    intro fuel h hlen
    match sg with
    | TemplateSeg.lit l =>
      rw [segsOk, Bool.and_eq_true] at h
      rw [assemble_cons, assembleSeg] at hlen ⊢
      rw [scanCaptures_skip l (assemble rest) (litOk_props l h.1).1 fuel hlen]
      rw [segCaptures]
      refine ih (fuel - l.length) h.2 ?_
      rw [List.length_append] at hlen
      omega
    | TemplateSeg.ref n d =>
      rw [segsOk, Bool.and_eq_true, Bool.and_eq_true] at h
      obtain ⟨⟨href, hafter⟩, hrest⟩ := h
      obtain ⟨hne, hword, hdv⟩ := refOk_props n d href
      have hmatch : matchAt (assembleSeg (TemplateSeg.ref n d) ++ assemble rest)
          = some (⟨n, d⟩, assemble rest) := by
        match d with
        | none => exact matchAt_ref_none n rest hne hword hafter hrest
        | some dv =>
          obtain ⟨hdvne, hdvchar⟩ := hdv dv rfl
          exact matchAt_ref_some n dv rest hne hword hdvne hdvchar hafter hrest
      rw [assemble_cons] at hlen ⊢
      have hshape : ∃ t, assembleSeg (TemplateSeg.ref n d) ++ assemble rest
          = '$' :: lbrace :: t := by
        match d with
        | none => exact ⟨n ++ rbrace :: assemble rest, by simp [assembleSeg]⟩
        | some dv =>
          exact ⟨n ++ ':' :: (dv ++ rbrace :: assemble rest), by simp [assembleSeg]⟩
      obtain ⟨t, ht⟩ := hshape
      have hsl : 1 ≤ (assembleSeg (TemplateSeg.ref n d)).length := by
        match d with
        | none => simp [assembleSeg]
        | some dv => simp [assembleSeg]
      have hrest0 : (assemble rest).length + 1
          ≤ (assembleSeg (TemplateSeg.ref n d) ++ assemble rest).length := by
        rw [List.length_append]; omega
      match fuel with
      | 0 =>
        rw [ht] at hlen
        simp at hlen
      | f + 1 =>
        have hrestlen : (assemble rest).length ≤ f := by omega
        rw [ht] at hmatch ⊢
        rw [scanCaptures]
        simp only [hmatch, segCaptures]
        rw [ih f hrest hrestlen]

theorem renderScan_assemble (data : TemplateData) :
    ∀ (segs : List TemplateSeg) (fuel : Nat), segsOk segs = true →
      (assemble segs).length ≤ fuel →
      (∀ n d, TemplateSeg.ref n d ∈ segs → (lookupData n data).isSome = true) →
      renderScan data fuel (assemble segs)
        = some ((segs.map (fun sg =>
            match sg with
            | TemplateSeg.lit l => l
            | TemplateSeg.ref n _ => (lookupData n data).getD [])).flatten) := by
  intro segs
  induction segs with
  | nil =>
    intro fuel _ _ _
    match fuel with
    | 0 => rfl
    | f + 1 => rfl
  | cons sg rest ih =>
    intro fuel h hlen hlook
    match sg with
    | TemplateSeg.lit l =>
      rw [segsOk, Bool.and_eq_true] at h
      rw [assemble_cons, assembleSeg] at hlen ⊢
      rw [renderScan_skip data l (assemble rest) (litOk_props l h.1).1 fuel hlen]
      rw [ih (fuel - l.length) h.2 ?hrl ?hlk]
      case hrl =>
        rw [List.length_append] at hlen
        omega
      case hlk =>
        exact fun n d hm => hlook n d (List.mem_cons_of_mem _ hm)
      simp
    | TemplateSeg.ref n d =>
      rw [segsOk, Bool.and_eq_true, Bool.and_eq_true] at h
      obtain ⟨⟨href, hafter⟩, hrest⟩ := h
      obtain ⟨hne, hword, hdv⟩ := refOk_props n d href
      have hmatch : matchAt (assembleSeg (TemplateSeg.ref n d) ++ assemble rest)
          = some (⟨n, d⟩, assemble rest) := by
        match d with
        | none => exact matchAt_ref_none n rest hne hword hafter hrest
        | some dv =>
          obtain ⟨hdvne, hdvchar⟩ := hdv dv rfl
          exact matchAt_ref_some n dv rest hne hword hdvne hdvchar hafter hrest
      obtain ⟨v, hv⟩ := Option.isSome_iff_exists.mp
        (by exact_mod_cast hlook n d (List.mem_cons_self _ _))
      rw [assemble_cons] at hlen ⊢
      have hshape : ∃ t, assembleSeg (TemplateSeg.ref n d) ++ assemble rest
          = '$' :: lbrace :: t := by
        match d with
        | none => exact ⟨n ++ rbrace :: assemble rest, by simp [assembleSeg]⟩
        | some dv =>
          exact ⟨n ++ ':' :: (dv ++ rbrace :: assemble rest), by simp [assembleSeg]⟩
      obtain ⟨t, ht⟩ := hshape
      have hsl : 1 ≤ (assembleSeg (TemplateSeg.ref n d)).length := by
        match d with
        | none => simp [assembleSeg]
        | some dv => simp [assembleSeg]
      have hrest0 : (assemble rest).length + 1
          ≤ (assembleSeg (TemplateSeg.ref n d) ++ assemble rest).length := by
        rw [List.length_append]; omega
      match fuel with
      | 0 =>
        rw [ht] at hlen
        simp at hlen
      | f + 1 =>
        have hrestlen : (assemble rest).length ≤ f := by omega
        rw [ht] at hmatch ⊢
        rw [renderScan]
        simp only [hmatch, hv]
        rw [ih f hrest hrestlen (fun n' d' hm => hlook n' d' (List.mem_cons_of_mem _ hm))]
        simp [hv]

theorem lookupData_insert_self (data : TemplateData) (k v : List Char) :
    lookupData k (insertData data k v) = some v := by
  rw [insertData, lookupData, if_pos rfl]

theorem lookupData_remove_ne (k k' : List Char) (h : k' ≠ k) :
    ∀ data : TemplateData, lookupData k' (removeData k data) = lookupData k' data := by
  intro data
  induction data with
  | nil => rfl
  | cons e rest ih =>
    by_cases he : e.1 = k
    · have ha : e.1 ≠ k' := by rw [he]; exact fun hx => h hx.symm
      rw [removeData, if_pos he, ih, lookupData, if_neg ha]
    · rw [removeData, if_neg he, lookupData, lookupData]
      by_cases ha : e.1 = k'
      · rw [if_pos ha, if_pos ha]
      · rw [if_neg ha, if_neg ha, ih]

theorem lookupData_insert_ne (data : TemplateData) (k v k' : List Char) (h : k' ≠ k) :
    lookupData k' (insertData data k v) = lookupData k' data := by
  rw [insertData, lookupData, if_neg (fun hx => h hx.symm), lookupData_remove_ne k k' h]

theorem resolveRef_eq_none (env : EnvMap) (n : List Char) (d : Option (List Char)) :
    resolveRef env n d = none ↔ env n = none ∧ d = none := by
  rw [resolveRef]
  cases env n <;> simp

theorem buildData_frame (env : EnvMap) :
    ∀ (caps : List TemplateCapture) (data0 data' : TemplateData) (n : List Char),
      n ∉ caps.map TemplateCapture.name →
      buildData env caps data0 = some data' →
      lookupData n data' = lookupData n data0 := by
  intro caps
  induction caps with
  | nil =>
    intro data0 data' n _ hb
    rw [buildData] at hb
    cases hb
    rfl
  | cons cp rest ih =>
    intro data0 data' n hn hb
    have hne : n ≠ cp.name := by
      intro hx
      exact hn (by rw [List.map_cons, hx]; exact List.mem_cons_self _ _)
    have hn' : n ∉ rest.map TemplateCapture.name := by
      intro hx
      exact hn (by rw [List.map_cons]; exact List.mem_cons_of_mem _ hx)
    rw [buildData] at hb
    match henv : env cp.name with
    | some v =>
      rw [henv] at hb
      rw [ih (insertData data0 cp.name v) data' n hn' hb,
        lookupData_insert_ne data0 cp.name v n hne]
    | none =>
      rw [henv] at hb
      match hd : cp.defaultVal with
      | some dval =>
        rw [hd] at hb
        rw [ih (insertData data0 cp.name dval) data' n hn' hb,
          lookupData_insert_ne data0 cp.name dval n hne]
      | none =>
        rw [hd] at hb
        cases hb

theorem buildData_ok (env : EnvMap) :
    ∀ (caps : List TemplateCapture) (data0 : TemplateData),
      (caps.map TemplateCapture.name).Nodup →
      (∀ cp ∈ caps, (resolveRef env cp.name cp.defaultVal).isSome = true) →
      ∃ data', buildData env caps data0 = some data'
        ∧ ∀ cp ∈ caps, lookupData cp.name data' = resolveRef env cp.name cp.defaultVal := by
  intro caps
  induction caps with
  | nil =>
    intro data0 _ _
    exact ⟨data0, rfl, fun cp hcp => absurd hcp (List.not_mem_nil cp)⟩
  | cons cp rest ih =>
    intro data0 hnodup hres
    rw [List.map_cons, List.nodup_cons] at hnodup
    have hres' := fun c hm => hres c (List.mem_cons_of_mem cp hm)
    have hresolve : ∃ val, resolveRef env cp.name cp.defaultVal = some val
        ∧ buildData env (cp :: rest) data0
            = buildData env rest (insertData data0 cp.name val) := by
      rw [buildData, resolveRef]
      match henv : env cp.name with
      | some v => exact ⟨v, rfl, rfl⟩
      | none =>
        match hd : cp.defaultVal with
        | some dval => exact ⟨dval, rfl, rfl⟩
        | none =>
          have := hres cp (List.mem_cons_self cp rest)
          rw [resolveRef, henv, hd] at this
          simp at this
    obtain ⟨val, hval, hstep⟩ := hresolve
    obtain ⟨data', hbuild, hlook⟩ := ih (insertData data0 cp.name val) hnodup.2 hres'
    refine ⟨data', hstep.trans hbuild, ?_⟩
    intro c hc
    rcases List.mem_cons.mp hc with rfl | hcr
    · rw [buildData_frame env rest (insertData data0 c.name val) data' c.name hnodup.1
        hbuild, lookupData_insert_self, hval]
    · exact hlook c hcr

theorem buildData_fail (env : EnvMap) :
    ∀ (caps : List TemplateCapture) (data0 : TemplateData) (cp : TemplateCapture),
      cp ∈ caps → resolveRef env cp.name cp.defaultVal = none →
      buildData env caps data0 = none := by
  intro caps
  induction caps with
  | nil => intro data0 cp hcp; exact absurd hcp (List.not_mem_nil cp)
  | cons c rest ih =>
    intro data0 cp hcp hnone
    rw [buildData]
    rcases List.mem_cons.mp hcp with rfl | hcr
    · obtain ⟨henv, hd⟩ := (resolveRef_eq_none env cp.name cp.defaultVal).mp hnone
      rw [henv, hd]
    · match henv : env c.name with
      | some v => exact ih (insertData data0 c.name v) cp hcr hnone
      | none =>
        match hd : c.defaultVal with
        | some dval => exact ih (insertData data0 c.name dval) cp hcr hnone
        | none => rfl

theorem segCaptures_mem :
    ∀ (segs : List TemplateSeg) (cp : TemplateCapture), cp ∈ segCaptures segs →
      TemplateSeg.ref cp.name cp.defaultVal ∈ segs := by
  intro segs
  induction segs with
  | nil => intro cp hcp; exact absurd hcp (List.not_mem_nil cp)
  | cons sg rest ih =>
    intro cp hcp
    match sg with
    | TemplateSeg.lit l =>
      rw [segCaptures] at hcp
      exact List.mem_cons_of_mem _ (ih cp hcp)
    | TemplateSeg.ref n d =>
      rw [segCaptures] at hcp
      rcases List.mem_cons.mp hcp with rfl | hcr
      · exact List.mem_cons_self _ _
      · exact List.mem_cons_of_mem _ (ih cp hcr)

theorem mem_segCaptures :
    ∀ (segs : List TemplateSeg) (n : List Char) (d : Option (List Char)),
      TemplateSeg.ref n d ∈ segs → (⟨n, d⟩ : TemplateCapture) ∈ segCaptures segs := by
  intro segs
  induction segs with
  | nil => intro n d h; exact absurd h (List.not_mem_nil _)
  | cons sg rest ih =>
    intro n d h
    rcases List.mem_cons.mp h with rfl | hr
    · rw [segCaptures]; exact List.mem_cons_self _ _
    · match sg with
      | TemplateSeg.lit l => rw [segCaptures]; exact ih n d hr
      | TemplateSeg.ref n' d' => rw [segCaptures]; exact List.mem_cons_of_mem _ (ih n d hr)

theorem segCaptures_names :
    ∀ segs : List TemplateSeg,
      (segCaptures segs).map TemplateCapture.name = refNames segs := by
  intro segs
  induction segs with
  | nil => rfl
  | cons sg rest ih =>
    match sg with
    | TemplateSeg.lit l => rw [segCaptures, refNames, ih]
    | TemplateSeg.ref n d => rw [segCaptures, refNames, List.map_cons, ih]

theorem allResolvable_iff (env : EnvMap) :
    ∀ segs : List TemplateSeg,
      allResolvable env segs = true
        ↔ ∀ n d, TemplateSeg.ref n d ∈ segs → (resolveRef env n d).isSome = true := by
  intro segs
  induction segs with
  | nil => simp [allResolvable]
  | cons sg rest ih =>
    match sg with
    | TemplateSeg.lit l =>
      rw [allResolvable, ih]
      constructor
      · intro h n d hm
        rcases List.mem_cons.mp hm with hx | hr
        · cases hx
        · exact h n d hr
      · intro h n d hm
        exact h n d (List.mem_cons_of_mem _ hm)
    | TemplateSeg.ref n0 d0 =>
      rw [allResolvable, Bool.and_eq_true, ih]
      constructor
      · intro h n d hm
        rcases List.mem_cons.mp hm with hx | hr
        · cases hx; exact h.1
        · exact h.2 n d hr
      · intro h
        exact ⟨h n0 d0 (List.mem_cons_self _ _),
          fun n d hm => h n d (List.mem_cons_of_mem _ hm)⟩

/-- C7 (amended): `render_config_file` substitutes every `${VAR}` occurrence with the value
of the environment variable `VAR`; the fallback separator of the capture regex is a plain
colon, so an occurrence `${VAR:default}` with `VAR` unset substitutes the fallback `default`
(and `${VAR:-default}` substitutes `-default`); a reference to an unset variable with no
default makes rendering return an error. Stated over every well-formed template: literal
chunks free of `$` and of the closing brace (a chunk after a reference starting with
whitespace), references with word-character names — distinct so that each occurrence has one
substitution value — and nonempty brace-free defaults. -/
theorem render_config_file_amended (env : EnvMap) (segs : List TemplateSeg)
    (hwf : segsOk segs = true) (hnodup : (refNames segs).Nodup) :
    render_config_file env (assemble segs)
      = if allResolvable env segs = true
        then some ((segs.map (renderedSeg env)).flatten)
        else none := by
  rw [render_config_file]
  rw [scanCaptures_assemble segs (assemble segs).length hwf (Nat.le_refl _)]
  by_cases hall : allResolvable env segs = true
  · rw [if_pos hall]
    have hres : ∀ cp ∈ segCaptures segs,
        (resolveRef env cp.name cp.defaultVal).isSome = true := by
      intro cp hcp
      exact (allResolvable_iff env segs).mp hall cp.name cp.defaultVal
        (segCaptures_mem segs cp hcp)
    have hnodup' : ((segCaptures segs).map TemplateCapture.name).Nodup := by
      rw [segCaptures_names]; exact hnodup
    obtain ⟨data, hbuild, hlook⟩ := buildData_ok env (segCaptures segs) [] hnodup' hres
    simp only [hbuild]
    rw [renderScan_assemble data segs (assemble segs).length hwf (Nat.le_refl _) ?hlk]
    case hlk =>
      intro n d hm
      rw [hlook ⟨n, d⟩ (mem_segCaptures segs n d hm)]
      exact (allResolvable_iff env segs).mp hall n d hm
    congr 1
    apply congrArg
    apply List.map_congr_left
    intro sg hsg
    match sg with
    | TemplateSeg.lit l => rfl
    | TemplateSeg.ref n d =>
      exact congrArg (fun o => o.getD []) (hlook ⟨n, d⟩ (mem_segCaptures segs n d hsg))
  · rw [if_neg hall]
    have hex : ∃ n d, TemplateSeg.ref n d ∈ segs ∧ resolveRef env n d = none := by
      by_contra hno
      push_neg at hno
      apply hall
      rw [allResolvable_iff]
      intro n d hm
      have := hno n d hm
      cases hopt : resolveRef env n d with
      | none => exact absurd hopt this
      | some v => rfl
    obtain ⟨n, d, hmem, hnone⟩ := hex
    rw [buildData_fail env (segCaptures segs) [] ⟨n, d⟩ (mem_segCaptures segs n d hmem)
      hnone]

/-- Witness for C7 (amended): on the concrete template, `${VAR}` is substituted with the
environment value and `${ROOT_DIR:x1}` with its default. -/
theorem render_config_file_amended_witness :
    render_config_file c7EnvSet (assemble c7Segs)
      = if allResolvable c7EnvSet c7Segs = true
        then some ((c7Segs.map (renderedSeg c7EnvSet)).flatten)
        else none :=
  render_config_file_amended c7EnvSet c7Segs (by decide) (by decide)

/-- C7 counterexample: with `VAR` unset, rendering the template `${VAR:-default}` succeeds
and substitutes `-default` — the capture regex separates the fallback with a plain colon, so
the captured fallback is `-default` — instead of the fallback `default` the claim
promises. -/
theorem render_template_dash_default_counterexample :
    render_config_file c7Env c7Text = some "-default".toList
      ∧ "-default".toList ≠ "default".toList := by
  exact ⟨by decide, by decide⟩

theorem retryGo_le (outcome : Nat → CallOutcome) (m : Nat) :
    ∀ (fuel attempt : Nat), attempt ≤ m → (retryGo outcome m attempt fuel).1 ≤ m := by
  intro fuel
  induction fuel with
  | zero => intro a ha; exact ha
  | succ n ih =>
    intro a ha
    rw [retryGo]
    cases outcome a with
    | success => exact ha
    | permanent => exact ha
    | transient =>
      by_cases hlt : a < m
      · simp only [hlt, if_true]
        exact ih (a + 1) hlt
      · simp only [hlt, if_false]
        exact ha

theorem retryGo_ge (outcome : Nat → CallOutcome) (m : Nat) :
    ∀ (fuel attempt : Nat), attempt ≤ (retryGo outcome m attempt fuel).1 := by
  intro fuel
  induction fuel with
  | zero => intro a; exact Nat.le_refl a
  | succ n ih =>
    intro a
    rw [retryGo]
    cases outcome a with
    | success => exact Nat.le_refl a
    | permanent => exact Nat.le_refl a
    | transient =>
      by_cases hlt : a < m
      · simp only [hlt, if_true]
        exact Nat.le_trans (Nat.le_succ a) (ih (a + 1))
      · simp only [hlt, if_false]
        exact Nat.le_refl a

theorem retryCall_le (p : RetryParams) (outcome : Nat → CallOutcome)
    (hm : 1 ≤ p.maxAttempts) : (retryCall p outcome).1 ≤ p.maxAttempts :=
  retryGo_le outcome p.maxAttempts p.maxAttempts 1 hm

theorem retryCall_ge (p : RetryParams) (outcome : Nat → CallOutcome) :
    1 ≤ (retryCall p outcome).1 :=
  retryGo_ge outcome p.maxAttempts p.maxAttempts 1

theorem countP_attemptCalls_eq (f : Nat → S3Call) (k : Nat) (p : S3Call → Bool)
    (h : ∀ a, p (f (a + 1)) = true) : (attemptCalls f k).countP p = k := by
  rw [attemptCalls, List.countP_map]
  have : ∀ a ∈ List.range k, (p ∘ fun a => f (a + 1)) a = true := fun a _ => h a
  rw [List.countP_eq_length.mpr this, List.length_range]

theorem countP_attemptCalls_zero (f : Nat → S3Call) (k : Nat) (p : S3Call → Bool)
    (h : ∀ a, p (f (a + 1)) = false) : (attemptCalls f k).countP p = 0 := by
  rw [attemptCalls, List.countP_map]
  exact List.countP_eq_zero.mpr (fun a _ => by simp [h a])

theorem uploadParts_countP_other (p : RetryParams) (o : S3Oracle) (pr : S3Call → Bool)
    (h : ∀ m a, pr (S3Call.uploadPart m a) = false) :
    ∀ (remaining start : Nat), ((uploadParts p o start remaining).1.countP pr) = 0 := by
  intro remaining
  induction remaining with
  | zero => intro start; rfl
  | succ n ih =>
    intro start
    rw [uploadParts]
    simp only [List.countP_append]
    rw [countP_attemptCalls_zero _ _ _ (fun a => h start (a + 1)), ih (start + 1)]

theorem uploadParts_countP_lt (p : RetryParams) (o : S3Oracle) (n : Nat) :
    ∀ (remaining start : Nat), n < start →
      ((uploadParts p o start remaining).1.countP (isUploadPartOf n)) = 0 := by
  intro remaining
  induction remaining with
  | zero => intro start _; rfl
  | succ k ih =>
    intro start hlt
    rw [uploadParts]
    simp only [List.countP_append]
    have hne : (start == n) = false := by
      simp only [beq_eq_false_iff_ne]; omega
    rw [countP_attemptCalls_zero _ _ _ (fun _ => by simp [isUploadPartOf, hne]),
      ih (start + 1) (by omega)]

theorem uploadParts_countP_le (p : RetryParams) (o : S3Oracle)
    (hm : 1 ≤ p.maxAttempts) (n : Nat) :
    ∀ (remaining start : Nat),
      ((uploadParts p o start remaining).1.countP (isUploadPartOf n)) ≤ p.maxAttempts := by
  intro remaining
  induction remaining with
  | zero => intro start; simp [uploadParts]
  | succ k ih =>
    intro start
    rw [uploadParts]
    simp only [List.countP_append]
    by_cases heq : start = n
    · subst heq
      rw [uploadParts_countP_lt p o start (k) (start + 1) (by omega),
        countP_attemptCalls_eq _ _ _ (fun _ => by simp [isUploadPartOf])]
      simpa using retryCall_le p (o.partOutcome start) hm
    · have hne : (start == n) = false := by simp only [beq_eq_false_iff_ne]; exact heq
      rw [countP_attemptCalls_zero _ _ _ (fun _ => by simp [isUploadPartOf, hne])]
      simpa using ih (start + 1)

theorem uploadParts_fail (p : RetryParams) (o : S3Oracle) :
    ∀ (remaining start i : Nat), i < remaining →
      (retryCall p (o.partOutcome (start + i))).2.isSuccess = false →
      (uploadParts p o start remaining).2 = false := by
  intro remaining
  induction remaining with
  | zero => intro start i h; omega
  | succ k ih =>
    intro start i hi hfail
    rw [uploadParts]
    match i with
    | 0 =>
      simp only [Nat.add_zero] at hfail
      simp [hfail]
    | j + 1 =>
      have : (retryCall p (o.partOutcome (start + 1 + j))).2.isSuccess = false := by
        have harith : start + 1 + j = start + (j + 1) := by omega
        rw [harith]; exact hfail
      simp [ih (start + 1) j (by omega) this]

/-- C5: for the S3 storage built by `S3CompatibleObjectStorage::new` (so with
`max_attempts = 3`), a multi-part `put` on which some part upload fails terminally makes at
most `max_attempts` attempts for each operation (every part, the upload creation and the
abort), then attempts `AbortMultipartUpload` for the upload, never issues a
`CompleteMultipartUpload`, and returns the upload error. -/
theorem s3_put_multipart_part_failure (o : S3Oracle) (partLen totalLen : Nat)
    (hmulti : partLen < totalLen)
    (hcreate : (retryCall s3RetryParams o.createOutcome).2.isSuccess = true)
    (hfail : ∃ i ∈ List.range (chunkRanges totalLen partLen).length,
      (retryCall s3RetryParams (o.partOutcome (1 + i))).2.isSuccess = false) :
    ((∀ n, ((s3_put s3RetryParams o partLen totalLen).1.countP (isUploadPartOf n))
          ≤ s3RetryParams.maxAttempts)
      ∧ ((s3_put s3RetryParams o partLen totalLen).1.countP isCreateCall)
          ≤ s3RetryParams.maxAttempts
      ∧ ((s3_put s3RetryParams o partLen totalLen).1.countP isAbortCall)
          ≤ s3RetryParams.maxAttempts)
    ∧ S3Call.abortMultipartUpload 1 ∈ (s3_put s3RetryParams o partLen totalLen).1
    ∧ (∀ a, S3Call.completeMultipartUpload a ∉ (s3_put s3RetryParams o partLen totalLen).1)
    ∧ (s3_put s3RetryParams o partLen totalLen).2 = false := by
  have hm : 1 ≤ s3RetryParams.maxAttempts := by decide
  have hnotsingle : ¬ (partLen ≥ totalLen) := by omega
  obtain ⟨i, hiRange, hiFail⟩ := hfail
  have hi : i < (chunkRanges totalLen partLen).length := List.mem_range.mp hiRange
  have hPartsFail :
      (uploadParts s3RetryParams o 1 (chunkRanges totalLen partLen).length).2 = false :=
    uploadParts_fail s3RetryParams o (chunkRanges totalLen partLen).length 1 i hi hiFail
  have hput : s3_put s3RetryParams o partLen totalLen
      = (attemptCalls S3Call.createMultipartUpload
            (retryCall s3RetryParams o.createOutcome).1
          ++ (uploadParts s3RetryParams o 1 (chunkRanges totalLen partLen).length).1
          ++ attemptCalls S3Call.abortMultipartUpload
            (retryCall s3RetryParams o.abortOutcome).1,
         false) := by
    rw [s3_put]
    simp only [hnotsingle, if_false]
    rw [put_multi_part]
    simp only [hcreate, if_true, hPartsFail]
    simp
  rw [hput]
  refine ⟨⟨?_, ?_, ?_⟩, ?_, ?_, rfl⟩
  · intro n
    simp only [List.countP_append]
    rw [countP_attemptCalls_zero _ _ _ (fun _ => by simp [isUploadPartOf]),
      countP_attemptCalls_zero _ _ _ (fun _ => by simp [isUploadPartOf])]
    simpa using uploadParts_countP_le s3RetryParams o hm n _ 1
  · simp only [List.countP_append]
    rw [countP_attemptCalls_eq _ _ _ (fun _ => by simp [isCreateCall]),
      countP_attemptCalls_zero _ _ _ (fun _ => by simp [isCreateCall]),
      uploadParts_countP_other s3RetryParams o isCreateCall
        (fun _ _ => by simp [isCreateCall]) _ 1]
    simpa using retryCall_le s3RetryParams o.createOutcome hm
  · simp only [List.countP_append]
    rw [countP_attemptCalls_zero _ _ _ (fun _ => by simp [isAbortCall]),
      countP_attemptCalls_eq _ _ _ (fun _ => by simp [isAbortCall]),
      uploadParts_countP_other s3RetryParams o isAbortCall
        (fun _ _ => by simp [isAbortCall]) _ 1]
    simpa using retryCall_le s3RetryParams o.abortOutcome hm
  · apply List.mem_append_right
    rw [attemptCalls]
    refine List.mem_map.mpr ⟨0, ?_, rfl⟩
    rw [List.mem_range]
    exact retryCall_ge s3RetryParams o.abortOutcome
  · intro a
    have hz : (attemptCalls S3Call.createMultipartUpload
            (retryCall s3RetryParams o.createOutcome).1
          ++ (uploadParts s3RetryParams o 1 (chunkRanges totalLen partLen).length).1
          ++ attemptCalls S3Call.abortMultipartUpload
            (retryCall s3RetryParams o.abortOutcome).1).countP isCompleteCall = 0 := by
      simp only [List.countP_append]
      rw [countP_attemptCalls_zero _ _ _ (fun _ => by simp [isCompleteCall]),
        countP_attemptCalls_zero _ _ _ (fun _ => by simp [isCompleteCall]),
        uploadParts_countP_other s3RetryParams o isCompleteCall
          (fun _ _ => by simp [isCompleteCall]) _ 1]
    intro hmem
    have := List.countP_eq_zero.mp hz _ hmem
    simp [isCompleteCall] at this

/-- Witness for C5: scenario S6 at a reduced scale — ten parts, part 5 failing permanently:
the abort is issued and `put` returns the error. -/
theorem s3_put_multipart_part_failure_witness :
    S3Call.abortMultipartUpload 1 ∈ (s3_put s3RetryParams s6Oracle 20 200).1
      ∧ (s3_put s3RetryParams s6Oracle 20 200).2 = false :=
  ⟨(s3_put_multipart_part_failure s6Oracle 20 200 (by decide) (by decide) (by decide)).2.1,
   (s3_put_multipart_part_failure s6Oracle 20 200 (by decide) (by decide)
      (by decide)).2.2.2⟩

/-- Witness for C4: two invalid documents (one parse error, one missing field), delta 0..2,
target 3: the run publishes the empty split list with the delta and emits nothing else. -/
theorem indexer_all_invalid_publishes_empty_witness :
    (Indexer.runMsgs ⟨"wikipedia", 3, none, IndexerCounters.zero, 0⟩
        [IndexerMsg.rawDocBatch
            ⟨[⟨10, DocOutcome.parsingError⟩, ⟨20, DocOutcome.missingField⟩], (0, 2)⟩,
         IndexerMsg.commitTimeout 0]).map (fun r => r.2)
      = some [IndexerEffect.scheduleCommitTimeout 0,
              IndexerEffect.publishSplits "wikipedia" [] [] (some (0, 2))] :=
  indexer_all_invalid_publishes_empty "wikipedia" 3
    [⟨10, DocOutcome.parsingError⟩, ⟨20, DocOutcome.missingField⟩] 0 2
    (by decide) (by decide)
